import Mathlib

/-!
# guext: extraction of `using` directives into `GlobalUsings.cs`

A shallow embedding of `main.go`.

* Go strings and file contents are lists of Unicode code points (the files are
  UTF-8 text); a length that Go measures in bytes is measured with `byteLen`.
* `bufio.Scanner` is the standard one: lines split by `ScanLines`, which drops
  one trailing carriage return, in a buffer of `bufio.MaxScanTokenSize` bytes.
* The file system is an explicit value that every function receives and
  returns.  Paths are cleaned and absolute, there are no symbolic links, and
  the errors of the operating system are those the state decides: a missing
  path, a directory where a file is expected, a directory that cannot be
  listed.
* What the program cannot decide is a parameter, `Env`: the identifier drawn
  by `uuid.New`, whether `os.MkdirAll` is refused, what `cp.Copy` leaves.
* A Go result `(value, error)` is a pair whose second component is `none` for
  a nil error; what `fmt.Println` prints is a list of `Msg`.
-/

set_option autoImplicit false

namespace Guext

/-! ## Strings and the standard-library functions the program calls -/

/-- A Go string or the content of a file. -/
abbrev Str := List Char

/-- Errors the program can meet: the line scanner's `bufio.ErrTooLong` and the
operating system's answers to opening or listing a path. -/
inductive Error where
  | ErrTooLong
  | ENOENT
  | EISDIR
  | ENOTDIR
  | EACCES
  deriving DecidableEq

/-- Go `len(s)`: the number of bytes of the UTF-8 encoding. -/
def byteLen (s : Str) : Nat := (s.map Char.utf8Size).sum

/-- Go `unicode.IsSpace`: the code points with the White_Space property. -/
def IsSpace (r : Char) : Bool :=
  let v := r.toNat
  (9 ≤ v && v ≤ 13) || v == 0x20 || v == 0x85 || v == 0xA0 || v == 0x1680 ||
    (0x2000 ≤ v && v ≤ 0x200A) || v == 0x2028 || v == 0x2029 || v == 0x202F ||
    v == 0x205F || v == 0x3000

/-- Go `strings.TrimSpace`: leading and trailing white space removed. -/
def TrimSpace (s : Str) : Str := (s.dropWhile IsSpace).rdropWhile IsSpace

/-- Go `strings.HasPrefix`. -/
def HasPrefix (s pre : Str) : Bool := pre.isPrefixOf s

/-- Text that `fmt.Fprintln(w, l)` writes: the string and one newline. -/
def Fprintln (l : Str) : Str := l ++ ['\n']

/-- Go `bufio.MaxScanTokenSize`, the size of the buffer of a `bufio.Scanner`. -/
def maxScanTokenSize : Nat := 64 * 1024

/-- The `dropCR` of `bufio.ScanLines`: one trailing carriage return is removed. -/
def dropCR (data : Str) : Str :=
  if data.getLast? = some '\r' then data.dropLast else data

/-- The tokens a `bufio.Scanner` with the default `ScanLines` split yields on
the unread input, and the error `scanner.Err()` reports afterwards.  `buf` is
the part of the current line already buffered.  A line ends at a newline or at
the end of the input, an empty final line is no token, and a line of
`maxScanTokenSize` bytes or more does not fit the buffer with its terminator:
the scan stops there with `ErrTooLong`. -/
def scanTokens (buf : Str) : Str → List Str × Option Error
  | [] =>
    if buf = [] then ([], none)
    else if maxScanTokenSize ≤ byteLen buf then ([], some .ErrTooLong)
    else ([dropCR buf], none)
  | c :: cs =>
    if c = '\n' then
      if maxScanTokenSize ≤ byteLen buf then ([], some .ErrTooLong)
      else (dropCR buf :: (scanTokens [] cs).1, (scanTokens [] cs).2)
    else scanTokens (buf ++ [c]) cs

/-- The loop `for scanner.Scan() { ... scanner.Text() ... }` followed by
`scanner.Err()`, on a file with content `data`. -/
def scanLines (data : Str) : List Str × Option Error := scanTokens [] data

/-- The test of `extractAndRemoveUsings` on one line:
`strings.HasPrefix(strings.TrimSpace(line), "using ")`. -/
def isUsing (line : Str) : Bool := HasPrefix (TrimSpace line) "using ".toList

/-- The scanning loop of `extractAndRemoveUsings`: a line that passes the test
is appended to `usings`, any other line to `lines`. -/
def extractLoop : List Str → List Str → List Str → List Str × List Str
  | [], lines, usings => (lines, usings)
  | line :: rest, lines, usings =>
    if isUsing line then extractLoop rest lines (usings ++ [line])
    else extractLoop rest (lines ++ [line]) usings

/-- The scanning loop of `removeDuplicatesFromFile`: `uniqueLines` is the set of
keys of the Go map, `orderedLines` the slice built next to it. -/
def dedupLoop : List Str → List Str → List Str → List Str
  | [], _, orderedLines => orderedLines
  | line :: rest, uniqueLines, orderedLines =>
    if line ∈ uniqueLines then dedupLoop rest uniqueLines orderedLines
    else dedupLoop rest (line :: uniqueLines) (orderedLines ++ [line])

/-- Text written by a loop of `Fprintln` calls over `lines`. -/
def writeLines (lines : List Str) : Str := lines.flatMap Fprintln

/-! ## The file system

A path is the list of its elements, cleaned and absolute; `[]` is the root
directory `/`.  A path string of the program that may be empty is an
`Option Path`, where `none` is the empty string `""`, which names no file.
There are no symbolic links, and no name holds a pattern character of
`filepath.Glob`. -/

/-- A cleaned absolute path; `[]` is the root directory. -/
abbrev Path := List String

/-- What a path names: a regular file with its content, or a directory that
can or cannot be listed. -/
inductive Node where
  | file (content : Str)
  | dir (readable : Bool)
  deriving DecidableEq

/-- One name of the file system. -/
structure Entry where
  path : Path
  node : Node
  deriving DecidableEq

/-- The file system: its entries in the order `filepath.Walk` visits them, a
directory before what it holds and the names of one directory in byte order. -/
abbrev FS := List Entry

/-- Byte order of two names, the order of `os.ReadDir`. -/
def nameLt : Str → Str → Bool
  | [], [] => false
  | [], _ :: _ => true
  | _ :: _, [] => false
  | a :: as, b :: bs => if a < b then true else if a = b then nameLt as bs else false

/-- Order of a walk on two paths: element by element, a prefix first. -/
def pathLt : Path → Path → Bool
  | [], [] => false
  | [], _ :: _ => true
  | _ :: _, [] => false
  | a :: as, b :: bs =>
    if nameLt a.toList b.toList then true else if a = b then pathLt as bs else false

/-- The node a path names, `os.Lstat`. -/
def lookup : FS → Path → Option Node
  | [], _ => none
  | e :: rest, p => if e.path = p then some e.node else lookup rest p

/-- A new entry put at its place in the walk order. -/
def insert : FS → Entry → FS
  | [], e => [e]
  | x :: rest, e => if pathLt e.path x.path then e :: x :: rest else x :: insert rest e

/-- The entry of an existing path replaced. -/
def replace (fs : FS) (e : Entry) : FS :=
  fs.map fun x => if x.path = e.path then e else x

/-- An entry written whether or not its path exists. -/
def put (fs : FS) (e : Entry) : FS :=
  if (lookup fs e.path).isSome then replace fs e else insert fs e

/-- The content of an existing file replaced: truncation, then the writes. -/
def write (fs : FS) (p : Path) (content : Str) : FS := replace fs ⟨p, .file content⟩

/-- Text appended to an existing file, the writes on an `O_APPEND` handle. -/
def appendFile (fs : FS) (p : Path) (text : Str) : FS :=
  fs.map fun x =>
    if x.path = p then
      match x.node with
      | .file content => ⟨p, .file (content ++ text)⟩
      | .dir _ => x
    else x

/-- The content `os.OpenFile(p, os.O_RDWR, _)` or `os.Open(p)` gives access to,
or the error of the open (of the first read, for `os.Open` on a directory). -/
def OpenFile (fs : FS) (p : Path) : Except Error Str :=
  match lookup fs p with
  | none => .error .ENOENT
  | some (.dir _) => .error .EISDIR
  | some (.file content) => .ok content

/-- The file system after `os.OpenFile(p, O_APPEND|O_CREATE|O_WRONLY, 0644)`:
a missing file is created empty in an existing directory. -/
def OpenAppend (fs : FS) (p : Path) : Except Error FS :=
  match lookup fs p with
  | some (.file _) => .ok fs
  | some (.dir _) => .error .EISDIR
  | none =>
    match lookup fs p.dropLast with
    | some (.dir _) => .ok (insert fs ⟨p, .file []⟩)
    | some (.file _) => .error .ENOTDIR
    | none => .error .ENOENT

/-- Go `filepath.Ext` on one name: the suffix that begins at its final dot. -/
def extOf : Str → Str
  | [] => []
  | c :: cs => if '.' ∈ cs then extOf cs else if c = '.' then c :: cs else []

/-- Go `filepath.Ext`. -/
def Ext (path : Path) : Str :=
  match path.getLast? with
  | some name => extOf name.toList
  | none => []

/-- Go `filepath.Match("*.csproj", name)`. -/
def matchCSProj (name : String) : Bool := ".csproj".toList.isSuffixOf name.toList

/-- The test `len(csprojFiles) > 0` on `filepath.Glob(filepath.Join(path,
"*.csproj"))`: some name directly inside `path` matches. -/
def hasCSProj (fs : FS) (path : Path) : Bool :=
  fs.any fun e =>
    e.path.dropLast == path &&
      match e.path.getLast? with
      | some name => matchCSProj name
      | none => false

/-- The entries `filepath.Walk` and `filepath.WalkDir` reach from `root`, in
order, or `none` when `os.Lstat(root)` fails. -/
def walkEntries (fs : FS) (root : Path) : Option (List Entry) :=
  match lookup fs root with
  | none => none
  | some (.file content) => some [⟨root, .file content⟩]
  | some (.dir _) => some (fs.filter fun e => root.isPrefixOf e.path)

/-! ## The program -/

/-- The callback of `findDirectoriesWithCSProj` over the entries of the walk.
`WalkDir` calls it on a directory first, then lists the directory, and on a
listing error calls it again with the error, which it returns: the walk stops
and `result` keeps what it held. -/
def findDirectoriesWithCSProj.visit (fs : FS) : List Entry → List Path → List Path × Option Error
  | [], result => (result, none)
  | e :: rest, result =>
    match e.node with
    | .file _ => findDirectoriesWithCSProj.visit fs rest result
    | .dir readable =>
      if readable then
        if hasCSProj fs e.path then findDirectoriesWithCSProj.visit fs rest (result ++ [e.path])
        else findDirectoriesWithCSProj.visit fs rest result
      else (result, some .EACCES)

/-- Go `findDirectoriesWithCSProj`: returns `result, err`.  On the empty
string `os.Lstat` fails, as on a path that does not exist. -/
def findDirectoriesWithCSProj (fs : FS) (rootDir : Option Path) : List Path × Option Error :=
  match rootDir with
  | none => ([], some .ENOENT)
  | some root =>
    match walkEntries fs root with
    | none => ([], some .ENOENT)
    | some entries => findDirectoriesWithCSProj.visit fs entries []

/-- Go `extractAndRemoveUsings`: returns `usings, err` and the file system. -/
def extractAndRemoveUsings (fs : FS) (filePath : Path) : (List Str × Option Error) × FS :=
  match OpenFile fs filePath with
  | .error err => (([], some err), fs)
  | .ok content =>
    match scanLines content with
    | (_, some err) => (([], some err), fs)
    | (tokens, none) =>
      ((((extractLoop tokens [] []).2, none)),
        write fs filePath (writeLines (extractLoop tokens [] []).1))

/-- The extension `".cs"` of a source file. -/
def csExt : Str := ".cs".toList

/-- The callback of `processCSFiles` over the entries of the walk.  `Walk`
lists a directory before it calls the callback on it, with the error of the
listing. -/
def processCSFiles.visit : List Entry → FS → List Str → (List Str × Option Error) × FS
  | [], fs, globalUsings => ((globalUsings, none), fs)
  | e :: rest, fs, globalUsings =>
    if e.node = .dir false then ((globalUsings, some .EACCES), fs)
    else if Ext e.path = csExt then
      match extractAndRemoveUsings fs e.path with
      | ((_, some err), fs1) => ((globalUsings, some err), fs1)
      | ((usings, none), fs1) => processCSFiles.visit rest fs1 (globalUsings ++ usings)
    else processCSFiles.visit rest fs globalUsings

/-- Go `processCSFiles`: returns `globalUsings, err` and the file system. -/
def processCSFiles (fs : FS) (rootDir : Path) : (List Str × Option Error) × FS :=
  match walkEntries fs rootDir with
  | none => (([], some .ENOENT), fs)
  | some entries => processCSFiles.visit entries fs []

/-- The line `createGlobalUsingsFile` writes for a directive: `"global "+u`. -/
def globalLine (u : Str) : Str := "global ".toList ++ u

/-- Go `removeDuplicatesFromFile`: returns `err` and the file system. -/
def removeDuplicatesFromFile (fs : FS) (filePath : Path) : Option Error × FS :=
  match OpenFile fs filePath with
  | .error err => (some err, fs)
  | .ok content =>
    match scanLines content with
    | (_, some err) => (some err, fs)
    | (tokens, none) => (none, write fs filePath (writeLines (dedupLoop tokens [] [])))

/-- Go `createGlobalUsingsFile`: returns `err` and the file system.  The value
`removeDuplicatesFromFile` returns is not looked at. -/
def createGlobalUsingsFile (fs : FS) (rootDir : Path) (usings : List Str) : Option Error × FS :=
  match OpenAppend fs (rootDir ++ ["GlobalUsings.cs"]) with
  | .error err => (some err, fs)
  | .ok fs1 =>
    (none,
      (removeDuplicatesFromFile
        (appendFile fs1 (rootDir ++ ["GlobalUsings.cs"])
          (writeLines (usings.map globalLine)))
        (rootDir ++ ["GlobalUsings.cs"])).2)

/-- What lies outside the program: the identifier `uuid.New()` draws, whether
`os.MkdirAll` is refused, and the entries `cp.Copy` leaves in the working
directory (paths relative to it) before it returns or gives up. -/
structure Env where
  uuid : String
  mkdirFails : Bool
  copied : List Entry

/-- A line of the standard output. -/
inductive Msg where
  | versionInfo
  | needDirectory
  | errorGettingDirs (err : Error)
  | noCSProj
  | errorCreatingDirectory (err : Error)
  | processing (dir : Path)
  | error (err : Error)
  | errorCreatingGlobalUsings (err : Error)
  deriving DecidableEq

/-- Go `os.MkdirAll` on the prefixes of a path, shortest first: a missing one
is created, a regular file in the way is an error. -/
def MkdirAll.go : List Path → FS → Option Error × FS
  | [], fs => (none, fs)
  | p :: ps, fs =>
    match lookup fs p with
    | some (.file _) => (some .ENOTDIR, fs)
    | some (.dir _) => MkdirAll.go ps fs
    | none => MkdirAll.go ps (insert fs ⟨p, .dir true⟩)

/-- Go `os.MkdirAll(path, os.ModePerm)`. -/
def MkdirAll (env : Env) (fs : FS) (path : Path) : Option Error × FS :=
  if env.mkdirFails then (some .EACCES, fs) else MkdirAll.go path.inits.tail fs

/-- The call `cp.Copy(sourceDir, workingDirPath)`, whose result the program
drops: the entries it creates lie in the destination. -/
def Copy (env : Env) (fs : FS) (dest : Path) : FS :=
  env.copied.foldl (fun fs e => put fs ⟨dest ++ e.path, e.node⟩) fs

/-- Go `createWorkingDirectory`: returns the named result `workingDir`, which
is still `""` when `os.MkdirAll` fails, the message printed and the file
system.  `filepath.Join(sourceDir, "../.guext-tmp", id)` replaces the last
element of `sourceDir`, and for the root directory, which has none, is
`/.guext-tmp/<id>`. -/
def createWorkingDirectory (env : Env) (fs : FS) (sourceDir : Path) :
    Option Path × List Msg × FS :=
  match MkdirAll env fs (sourceDir.dropLast ++ [".guext-tmp", env.uuid]) with
  | (some err, fs1) => (none, [.errorCreatingDirectory err], fs1)
  | (none, fs1) =>
    (some (sourceDir.dropLast ++ [".guext-tmp", env.uuid]), [],
      Copy env fs1 (sourceDir.dropLast ++ [".guext-tmp", env.uuid]))

/-- The loop of `main` over the project directories. -/
def main.transform : List Path → FS → List Msg → List Msg × FS
  | [], fs, out => (out, fs)
  | value :: rest, fs, out =>
    match processCSFiles fs value with
    | ((_, some err), fs1) => (out ++ [.processing value, .error err], fs1)
    | ((globalUsings, none), fs1) =>
      match createGlobalUsingsFile fs1 value globalUsings with
      | (some err, fs2) => (out ++ [.processing value, .errorCreatingGlobalUsings err], fs2)
      | (none, fs2) => main.transform rest fs2 (out ++ [.processing value])

/-- Go `main` on the flags `-v`, `-d` and `-disable-isolation`: returns the
lines printed and the file system.  The value of `-d` is `none` when it is the
empty string.  The error of the scan of the working directory is assigned and
never read. -/
def main (env : Env) (showVersion : Bool) (dir : Option Path) (disableDirectoryIsolation : Bool)
    (fs : FS) : List Msg × FS :=
  match dir with
  | none => ((if showVersion then [.versionInfo] else []) ++ [.needDirectory], fs)
  | some target =>
    match findDirectoriesWithCSProj fs (some target) with
    | (_, some err) => ((if showVersion then [.versionInfo] else []) ++ [.errorGettingDirs err], fs)
    | (projectDirs, none) =>
      if projectDirs.length = 0 then
        ((if showVersion then [.versionInfo] else []) ++ [.noCSProj], fs)
      else if disableDirectoryIsolation then
        main.transform projectDirs fs (if showVersion then [.versionInfo] else [])
      else
        main.transform
          (findDirectoriesWithCSProj (createWorkingDirectory env fs target).2.2
            (createWorkingDirectory env fs target).1).1
          (createWorkingDirectory env fs target).2.2
          ((if showVersion then [.versionInfo] else []) ++
            (createWorkingDirectory env fs target).2.1)

/-! ## Notions of the specification -/

/-- The lines of a text as the specification counts them: a line ends at a
newline, and a last line without one counts when it is not empty. -/
def rawLines : Str → List Str
  | [] => []
  | c :: cs =>
    if c = '\n' then [] :: rawLines cs
    else
      match rawLines cs with
      | [] => [[c]]
      | l :: ls => (c :: l) :: ls

/-- The lines of a file without their terminator, a newline or a carriage
return and a newline. -/
def fileLines (content : Str) : List Str := (rawLines content).map dropCR

/-- Follows the spec's words, "retains only the first occurrence of each
distinct line": a line is kept when no line before it equals it. -/
def firstOccurrences (ls : List Str) : List Str :=
  ((ls.inits.zip ls).filter fun x => decide (x.2 ∉ x.1)).map Prod.snd

/-- The directive lines of a file, in order. -/
def directives (content : Str) : List Str := (fileLines content).filter isUsing

/-- The other lines of a file, in order. -/
def body (content : Str) : List Str := (fileLines content).filter fun l => !isUsing l

/-- A line of `maxScanTokenSize` bytes, the shortest the scanner refuses. -/
def longLine : Str := List.replicate maxScanTokenSize 'x'

/-- The scanner's result read off the lines of the input. -/
def scanSpec : List Str → List Str × Option Error
  | [] => ([], none)
  | l :: ls =>
    if maxScanTokenSize ≤ byteLen l then ([], some .ErrTooLong)
    else (dropCR l :: (scanSpec ls).1, (scanSpec ls).2)

/-- The `.cs` files among the entries of a walk, with their content, in the
order of the walk. -/
def sourceFiles (es : List Entry) : List (Path × Str) :=
  es.filterMap fun e =>
    match e.node with
    | .file c => if Ext e.path = csExt then some (e.path, c) else none
    | .dir _ => none

/-- The `.cs` files of a project root, `f1 .. fn` in walk order. -/
def csFiles (fs : FS) (root : Path) : List (Path × Str) :=
  sourceFiles (fs.filter fun e => root.isPrefixOf e.path)

/-- The directives of the `.cs` files of a project root: those of `f1`, then
those of `f2`, and so on, each in line order. -/
def rootDirectives (fs : FS) (root : Path) : List Str :=
  (csFiles fs root).flatMap fun f => directives f.2

/-- Whether a node is a regular file. -/
def isFile : Node → Bool
  | .file _ => true
  | .dir _ => false

/-! ## Concrete runs -/

/-- A target tree `/t` with one project and one source file. -/
def treeT : FS :=
  [⟨["t"], .dir true⟩, ⟨["t", "a.cs"], .file "using A;\nclass X\n".toList⟩,
    ⟨["t", "a.csproj"], .file []⟩]

/-- A run whose copy of the tree is complete. -/
def envFull : Env :=
  ⟨"id", false, [⟨["a.cs"], .file "using A;\nclass X\n".toList⟩, ⟨["a.csproj"], .file []⟩]⟩

/-- A target that is the root directory, with one project in it. -/
def treeRoot : FS :=
  [⟨[], .dir true⟩, ⟨["a.cs"], .file "using A;\nclass X\n".toList⟩,
    ⟨["a.csproj"], .file []⟩]

/-- A target tree that is itself named `.guext-tmp`. -/
def treeTmp : FS :=
  [⟨["x"], .dir true⟩, ⟨["x", ".guext-tmp"], .dir true⟩,
    ⟨["x", ".guext-tmp", "a.cs"], .file "using A;\nclass X\n".toList⟩,
    ⟨["x", ".guext-tmp", "a.csproj"], .file []⟩]

/-- A target tree `/t` with the project in the directory `p` and a second
directory `z`. -/
def treeTwo : FS :=
  [⟨["t"], .dir true⟩, ⟨["t", "p"], .dir true⟩,
    ⟨["t", "p", "a.cs"], .file "using A;\nclass X\n".toList⟩,
    ⟨["t", "p", "a.csproj"], .file []⟩, ⟨["t", "z"], .dir true⟩]

/-- A run in whose copy the directory `z` cannot be listed. -/
def envBroken : Env :=
  ⟨"id", false,
    [⟨["p"], .dir true⟩, ⟨["p", "a.cs"], .file "using A;\nclass X\n".toList⟩,
      ⟨["p", "a.csproj"], .file []⟩, ⟨["z"], .dir false⟩]⟩

/-- The example of the specification: one project with two source files. -/
def treeSpec : FS :=
  [⟨["p"], .dir true⟩,
    ⟨["p", "file1.cs"], .file "using System;\nclass X\x7b\x7d\n".toList⟩,
    ⟨["p", "file2.cs"], .file "using System;\nusing System.Linq;\nclass Y\x7b\x7d\n".toList⟩,
    ⟨["p", "p.csproj"], .file []⟩]

/-- A project that already has an aggregate file. -/
def treeOld : FS :=
  [⟨["p"], .dir true⟩, ⟨["p", "GlobalUsings.cs"], .file "// old\n".toList⟩,
    ⟨["p", "a.cs"], .file "using A;\nclass X\n".toList⟩, ⟨["p", "p.csproj"], .file []⟩]

/-- A directive of 65529 bytes: the scanner accepts the line, and with
`"global "` in front of it the line has `maxScanTokenSize` bytes. -/
def longUsing : Str := "using ".toList ++ List.replicate (maxScanTokenSize - 13) 'x'

/-- A project whose source file holds the long directive twice. -/
def treeLong : FS :=
  [⟨["p"], .dir true⟩, ⟨["p", "a.cs"], .file (writeLines [longUsing, longUsing])⟩,
    ⟨["p", "p.csproj"], .file []⟩]

/-- That project once its source file is rewritten. -/
def treeLongStripped : FS :=
  [⟨["p"], .dir true⟩, ⟨["p", "a.cs"], .file []⟩, ⟨["p", "p.csproj"], .file []⟩]

/-- That project once the lines of the directives are appended to a new
aggregate file. -/
def treeLongDone : FS :=
  [⟨["p"], .dir true⟩,
    ⟨["p", "GlobalUsings.cs"], .file (writeLines [globalLine longUsing, globalLine longUsing])⟩,
    ⟨["p", "a.cs"], .file []⟩, ⟨["p", "p.csproj"], .file []⟩]

/-! ## Lines and the scanner -/

theorem rawLines_of_no_newline (l : Str) (h : '\n' ∉ l) (hne : l ≠ []) : rawLines l = [l] := by
  induction l with
  | nil => exact absurd rfl hne
  | cons c cs ih =>
    have hc : c ≠ '\n' := fun e => h (by simp [e])
    have hcs : '\n' ∉ cs := fun e => h (List.mem_cons_of_mem _ e)
    by_cases hnil : cs = []
    · subst hnil; simp [rawLines, hc]
    · simp [rawLines, hc, ih hcs hnil]

theorem rawLines_append_newline (l rest : Str) (h : '\n' ∉ l) :
    rawLines (l ++ '\n' :: rest) = l :: rawLines rest := by
  induction l with
  | nil => simp [rawLines]
  | cons c cs ih =>
    have hc : c ≠ '\n' := fun e => h (by simp [e])
    have hcs : '\n' ∉ cs := fun e => h (List.mem_cons_of_mem _ e)
    simp [rawLines, hc, ih hcs]

theorem rawLines_no_newline (data : Str) : ∀ l ∈ rawLines data, '\n' ∉ l := by
  induction data with
  | nil => simp [rawLines]
  | cons c cs ih =>
    by_cases hc : c = '\n'
    · simp only [rawLines, hc, if_true, List.mem_cons]
      rintro l (rfl | hl)
      · simp
      · exact ih l hl
    · simp only [rawLines, hc, if_false]
      cases hr : rawLines cs with
      | nil =>
        simp only [List.mem_singleton]
        rintro l rfl
        simpa using fun e => hc e.symm
      | cons l0 ls =>
        rw [hr] at ih
        simp only [List.mem_cons]
        rintro l (rfl | hl)
        · have := ih l0 (by simp)
          simp only [List.mem_cons, not_or]
          exact ⟨fun e => hc e.symm, this⟩
        · exact ih l (by simp [hl])

theorem rawLines_writeLines (ls : List Str) (h : ∀ l ∈ ls, '\n' ∉ l) :
    rawLines (writeLines ls) = ls := by
  induction ls with
  | nil => simp [writeLines, rawLines]
  | cons l ls ih =>
    have h1 : '\n' ∉ l := h l (by simp)
    have h2 : ∀ x ∈ ls, '\n' ∉ x := fun x hx => h x (by simp [hx])
    have : writeLines (l :: ls) = l ++ '\n' :: writeLines ls := by
      simp [writeLines, Fprintln]
    rw [this, rawLines_append_newline _ _ h1, ih h2]

theorem scanTokens_eq (data : Str) :
    ∀ buf : Str, '\n' ∉ buf → scanTokens buf data = scanSpec (rawLines (buf ++ data)) := by
  induction data with
  | nil =>
    intro buf hbuf
    by_cases hb : buf = []
    · subst hb; simp [scanTokens, rawLines, scanSpec]
    · simp only [List.append_nil, rawLines_of_no_newline buf hbuf hb, scanTokens, hb, if_false,
        scanSpec]
  | cons c cs ih =>
    intro buf hbuf
    by_cases hc : c = '\n'
    · subst hc
      have h0 := ih [] (by simp)
      simp only [List.nil_append] at h0
      simp only [scanTokens, if_true, rawLines_append_newline buf cs hbuf, scanSpec, h0]
    · have hb2 : '\n' ∉ buf ++ [c] := by
        simp only [List.mem_append, List.mem_singleton, not_or]
        exact ⟨hbuf, fun e => hc e.symm⟩
      have := ih (buf ++ [c]) hb2
      simp only [List.append_assoc, List.singleton_append] at this
      simp only [scanTokens, hc, if_false, this]

theorem scanLines_eq (data : Str) : scanLines data = scanSpec (rawLines data) := by
  simpa [scanLines] using scanTokens_eq data [] (by simp)

theorem scanSpec_short (ls : List Str) (h : ∀ l ∈ ls, byteLen l < maxScanTokenSize) :
    scanSpec ls = (ls.map dropCR, none) := by
  induction ls with
  | nil => rfl
  | cons l ls ih =>
    have h1 := h l (by simp)
    have h2 := ih fun x hx => h x (by simp [hx])
    simp [scanSpec, Nat.not_le.mpr h1, h2]

theorem scanSpec_long (ls : List Str) (h : ∃ l ∈ ls, maxScanTokenSize ≤ byteLen l) :
    (scanSpec ls).2 = some .ErrTooLong := by
  induction ls with
  | nil => simp at h
  | cons l ls ih =>
    by_cases hl : maxScanTokenSize ≤ byteLen l
    · simp [scanSpec, hl]
    · obtain ⟨x, hx, hlen⟩ := h
      have : x ∈ ls := by
        rcases List.mem_cons.mp hx with rfl | hx
        · exact absurd hlen hl
        · exact hx
      simp [scanSpec, hl, ih ⟨x, this, hlen⟩]

theorem scanLines_short (data : Str) (h : ∀ l ∈ rawLines data, byteLen l < maxScanTokenSize) :
    scanLines data = (fileLines data, none) := by
  rw [scanLines_eq, scanSpec_short _ h]; rfl

theorem scanLines_long (data : Str) (h : ∃ l ∈ rawLines data, maxScanTokenSize ≤ byteLen l) :
    (scanLines data).2 = some .ErrTooLong := by
  rw [scanLines_eq]; exact scanSpec_long _ h

/-! ## The loops over the lines -/

theorem extractLoop_eq (toks lines usings : List Str) :
    extractLoop toks lines usings =
      (lines ++ toks.filter (fun l => !isUsing l), usings ++ toks.filter isUsing) := by
  induction toks generalizing lines usings with
  | nil => simp [extractLoop]
  | cons l rest ih =>
    by_cases h : isUsing l = true
    · simp [extractLoop, h, ih]
    · simp [extractLoop, h, ih]

theorem dedupLoop_eq (rest : List Str) :
    ∀ uniqueLines orderedLines seen : List Str, (∀ x, x ∈ uniqueLines ↔ x ∈ seen) →
      dedupLoop rest uniqueLines orderedLines =
        orderedLines ++
          ((((rest.inits.map (seen ++ ·)).zip rest).filter fun x => decide (x.2 ∉ x.1)).map
            Prod.snd) := by
  induction rest with
  | nil => intro u o s _; simp [dedupLoop]
  | cons l ls ih =>
    intro u o s hs
    have hmap : ((l :: ls).inits.map (s ++ ·)) = s :: (ls.inits.map ((s ++ [l]) ++ ·)) := by
      simp [List.inits, List.map_map, Function.comp_def]
    rw [hmap, List.zip_cons_cons]
    by_cases hl : l ∈ u
    · have hl2 : l ∈ s := (hs l).mp hl
      have hs2 : ∀ x, x ∈ u ↔ x ∈ s ++ [l] := by
        intro x
        constructor
        · intro hx; exact List.mem_append_left _ ((hs x).mp hx)
        · intro hx
          rcases List.mem_append.mp hx with hx | hx
          · exact (hs x).mpr hx
          · rw [List.mem_singleton.mp hx]; exact hl
      simp only [dedupLoop, hl, if_true]
      rw [ih u o (s ++ [l]) hs2]
      simp [List.filter_cons, hl2]
    · have hl2 : l ∉ s := fun h => hl ((hs l).mpr h)
      have hs2 : ∀ x, x ∈ l :: u ↔ x ∈ s ++ [l] := by
        intro x
        simp only [List.mem_cons, List.mem_append, List.mem_singleton, hs x]
        tauto
      simp only [dedupLoop, hl, if_false]
      rw [ih (l :: u) (o ++ [l]) (s ++ [l]) hs2]
      simp [List.filter_cons, hl2]

theorem dedupLoop_firstOccurrences (toks : List Str) :
    dedupLoop toks [] [] = firstOccurrences toks := by
  have := dedupLoop_eq toks [] [] [] (by simp)
  simpa [firstOccurrences] using this

theorem dedupLoop_nodup (rest : List Str) :
    ∀ uniqueLines orderedLines : List Str, (∀ x ∈ orderedLines, x ∈ uniqueLines) →
      orderedLines.Nodup → (dedupLoop rest uniqueLines orderedLines).Nodup := by
  induction rest with
  | nil => intro u o _ ho; simpa [dedupLoop] using ho
  | cons l ls ih =>
    intro u o hsub ho
    by_cases hl : l ∈ u
    · simp only [dedupLoop, hl, if_true]; exact ih u o hsub ho
    · simp only [dedupLoop, hl, if_false]
      apply ih
      · intro x hx
        rcases List.mem_append.mp hx with hx | hx
        · exact List.mem_cons_of_mem _ (hsub x hx)
        · rw [List.mem_singleton.mp hx]; exact List.mem_cons_self _ _
      · rw [List.nodup_append]
        refine ⟨ho, List.nodup_singleton l, ?_⟩
        intro x hx hx2
        rw [List.mem_singleton.mp hx2] at hx
        exact hl (hsub l hx)

theorem dedupLoop_mem (rest : List Str) :
    ∀ (uniqueLines orderedLines : List Str) (x : Str),
      x ∈ dedupLoop rest uniqueLines orderedLines ↔
        x ∈ orderedLines ∨ (x ∈ rest ∧ x ∉ uniqueLines) := by
  induction rest with
  | nil => intro u o x; simp [dedupLoop]
  | cons l ls ih =>
    intro u o x
    by_cases hl : l ∈ u
    · simp only [dedupLoop, hl, if_true, ih, List.mem_cons]
      constructor
      · rintro (h | ⟨h1, h2⟩)
        · exact Or.inl h
        · exact Or.inr ⟨Or.inr h1, h2⟩
      · rintro (h | ⟨h1 | h1, h2⟩)
        · exact Or.inl h
        · exact absurd (h1 ▸ hl) h2
        · exact Or.inr ⟨h1, h2⟩
    · simp only [dedupLoop, hl, if_false, ih]
      by_cases hx : x = l
      · subst hx; simp [hl]
      · simp [hx]

theorem dedupLoop_of_nodup (rest : List Str) :
    ∀ uniqueLines orderedLines : List Str, rest.Nodup → (∀ x ∈ rest, x ∉ uniqueLines) →
      dedupLoop rest uniqueLines orderedLines = orderedLines ++ rest := by
  induction rest with
  | nil => intro u o _ _; simp [dedupLoop]
  | cons l ls ih =>
    intro u o hnd hu
    have hl : l ∉ u := hu l (by simp)
    rw [List.nodup_cons] at hnd
    simp only [dedupLoop, hl, if_false]
    rw [ih (l :: u) (o ++ [l]) hnd.2]
    · simp
    · intro x hx
      simp only [List.mem_cons, not_or]
      exact ⟨fun e => hnd.1 (e ▸ hx), hu x (by simp [hx])⟩

theorem firstOccurrences_nodup (ls : List Str) : (firstOccurrences ls).Nodup := by
  rw [← dedupLoop_firstOccurrences]
  exact dedupLoop_nodup ls [] [] (by simp) List.nodup_nil

theorem mem_firstOccurrences (ls : List Str) (x : Str) : x ∈ firstOccurrences ls ↔ x ∈ ls := by
  rw [← dedupLoop_firstOccurrences, dedupLoop_mem]; simp

theorem firstOccurrences_of_nodup (ls : List Str) (h : ls.Nodup) : firstOccurrences ls = ls := by
  rw [← dedupLoop_firstOccurrences, dedupLoop_of_nodup ls [] [] h (by simp)]; simp

/-! ## Carriage returns, lengths and the test for a directive -/

theorem byteLen_append (a b : Str) : byteLen (a ++ b) = byteLen a + byteLen b := by
  simp [byteLen]

theorem dropCR_initial (l : Str) : dropCR l <+: l := by
  unfold dropCR
  split
  · exact List.dropLast_prefix l
  · exact List.prefix_refl l

theorem byteLen_dropCR_le (l : Str) : byteLen (dropCR l) ≤ byteLen l := by
  obtain ⟨t, ht⟩ := dropCR_initial l
  have := byteLen_append (dropCR l) t
  rw [ht] at this
  omega

theorem dropCR_no_newline (l : Str) (h : '\n' ∉ l) : '\n' ∉ dropCR l :=
  fun hm => h ((dropCR_initial l).subset hm)

theorem dropCR_concat_cr (l : Str) : dropCR (l ++ ['\r']) = l := by
  simp [dropCR]

theorem dropCR_eq_or (l : Str) : dropCR l = l ∨ l = dropCR l ++ ['\r'] := by
  rcases List.eq_nil_or_concat l with rfl | ⟨l0, c, rfl⟩
  · left; rfl
  · by_cases hc : c = '\r'
    · subst hc; right; simp [dropCR]
    · left; simp [dropCR, hc]

theorem byteLen_le_dropCR_succ (l : Str) : byteLen l ≤ byteLen (dropCR l) + 1 := by
  rcases dropCR_eq_or l with h | h
  · rw [h]; exact Nat.le_add_right _ _
  · have h1 : byteLen ['\r'] = 1 := by decide
    have h2 := byteLen_append (dropCR l) ['\r']
    rw [← h, h1] at h2
    omega

theorem TrimSpace_concat_cr (l : Str) : TrimSpace (l ++ ['\r']) = TrimSpace l := by
  have hcr : IsSpace '\r' = true := by decide
  unfold TrimSpace
  rw [List.dropWhile_append]
  by_cases he : (List.dropWhile IsSpace l).isEmpty = true
  · have : List.dropWhile IsSpace l = [] := List.isEmpty_iff.mp he
    simp [this, List.dropWhile, hcr, List.rdropWhile]
  · simp only [he]
    rw [if_neg (by simp), List.rdropWhile_concat, if_pos hcr]

theorem isUsing_dropCR (l : Str) : isUsing (dropCR l) = isUsing l := by
  rcases dropCR_eq_or l with h | h
  · rw [h]
  · unfold isUsing
    conv_rhs => rw [h]
    rw [TrimSpace_concat_cr]

theorem fileLines_no_newline (data : Str) : ∀ l ∈ fileLines data, '\n' ∉ l := by
  intro l hl
  obtain ⟨r, hr, rfl⟩ := List.mem_map.mp hl
  exact dropCR_no_newline r (rawLines_no_newline data r hr)

theorem fileLines_short (data : Str) (h : ∀ l ∈ rawLines data, byteLen l < maxScanTokenSize) :
    ∀ l ∈ fileLines data, byteLen l < maxScanTokenSize := by
  intro l hl
  obtain ⟨r, hr, rfl⟩ := List.mem_map.mp hl
  exact Nat.lt_of_le_of_lt (byteLen_dropCR_le r) (h r hr)

theorem map_dropCR_id (ls : List Str) (h : ∀ l ∈ ls, dropCR l = l) : ls.map dropCR = ls := by
  induction ls with
  | nil => rfl
  | cons l ls ih =>
    simp only [List.map_cons, h l (by simp), ih fun x hx => h x (by simp [hx])]

theorem byteLen_replicate (n : Nat) (c : Char) :
    byteLen (List.replicate n c) = n * c.utf8Size := by
  induction n with
  | zero => simp [byteLen]
  | succ n ih =>
    have : byteLen (List.replicate (n + 1) c) = c.utf8Size + byteLen (List.replicate n c) := by
      simp [byteLen, List.replicate_succ]
    rw [this, ih]; ring

theorem rdropWhile_keeps (p : Char → Bool) (a : Str) (c : Char) (hc : p c = false) (b : Str) :
    a ++ [c] <+: List.rdropWhile p (a ++ c :: b) := by
  induction b using List.reverseRecOn with
  | nil => rw [List.rdropWhile_concat]; simp [hc]
  | append_singleton b x ih =>
    have : a ++ c :: (b ++ [x]) = (a ++ c :: b) ++ [x] := by simp
    rw [this, List.rdropWhile_concat]
    split
    · exact ih
    · exact ⟨b ++ [x], by simp⟩

theorem isUsing_iff (line : Str) :
    isUsing line = true ↔
      ∃ rest, line.dropWhile IsSpace = "using ".toList ++ rest ∧ ∃ c ∈ rest, IsSpace c = false := by
  unfold isUsing HasPrefix TrimSpace
  rw [ List.isPrefixOf_iff_prefix]
  generalize line.dropWhile IsSpace = t
  constructor
  · rintro ⟨r, hr⟩
    obtain ⟨w, hw⟩ := List.rdropWhile_prefix IsSpace t
    refine ⟨r ++ w, ?_, ?_⟩
    · rw [← List.append_assoc, hr, hw]
    · have hne : List.rdropWhile IsSpace t ≠ [] := by
        rw [← hr]; exact List.append_ne_nil_of_left_ne_nil (by decide) _
      have hlast := List.rdropWhile_last_not IsSpace t hne
      rcases List.eq_nil_or_concat r with rfl | ⟨r0, c, rfl⟩
      · exfalso
        apply hlast
        have h2 : List.rdropWhile IsSpace t = "using".toList ++ [' '] := by rw [← hr]; rfl
        simp only [h2, List.getLast_append_singleton]
        decide
      · refine ⟨c, by simp, ?_⟩
        have h2 : List.rdropWhile IsSpace t = ("using ".toList ++ r0) ++ [c] := by
          rw [← hr]; simp
        simp only [h2, List.getLast_append_singleton] at hlast
        simpa using hlast
  · rintro ⟨rest, ht, c, hc, hsp⟩
    obtain ⟨a, b, rfl⟩ := List.append_of_mem hc
    have := rdropWhile_keeps IsSpace ("using ".toList ++ a) c hsp b
    rw [ht, ← List.append_assoc]
    exact List.IsPrefix.trans ⟨a ++ [c], by simp⟩ this

/-! ## Lookups after a write -/

theorem lookup_replace (fs : FS) (e : Entry) (q : Path) :
    lookup (replace fs e) q =
      if q = e.path then (lookup fs q).map (fun _ => e.node) else lookup fs q := by
  induction fs with
  | nil => simp [replace, lookup]
  | cons x rest ih =>
    have hrep : replace (x :: rest) e = (if x.path = e.path then e else x) :: replace rest e := by
      simp [replace]
    rw [hrep]
    by_cases hx : x.path = e.path
    · by_cases hq : q = e.path
      · subst hq; simp [lookup, hx]
      · have : ¬ e.path = q := fun h => hq h.symm
        have hxq : ¬ x.path = q := fun h => hq (h ▸ hx ▸ rfl)
        simp only [hx, if_true, lookup, this, if_false, hxq, ih, hq]
    · by_cases hq : q = e.path
      · subst hq
        simp only [hx, if_false, lookup, ih, if_true]
      · simp only [hx, if_false, lookup, ih, hq]

theorem lookup_write (fs : FS) (p : Path) (content : Str) (q : Path) :
    lookup (write fs p content) q =
      if q = p then (lookup fs q).map (fun _ => Node.file content) else lookup fs q := by
  simp [write, lookup_replace]

theorem lookup_write_self (fs : FS) (p : Path) (c content : Str)
    (h : lookup fs p = some (.file c)) : lookup (write fs p content) p = some (.file content) := by
  simp [lookup_write, h]

theorem lookup_write_ne (fs : FS) (p q : Path) (content : Str) (h : q ≠ p) :
    lookup (write fs p content) q = lookup fs q := by
  simp [lookup_write, h]

theorem write_write (fs : FS) (p : Path) (a b : Str) : write (write fs p a) p b = write fs p b := by
  simp only [write, replace, List.map_map]
  apply List.map_congr_left
  intro x _
  by_cases hx : x.path = p <;> simp [hx]

theorem lookup_appendFile (fs : FS) (p : Path) (t : Str) (q : Path) :
    lookup (appendFile fs p t) q =
      if q = p then
        match lookup fs q with
        | some (.file c) => some (.file (c ++ t))
        | other => other
      else lookup fs q := by
  induction fs with
  | nil => simp [appendFile, lookup]
  | cons x rest ih =>
    have hrep : appendFile (x :: rest) p t =
        (if x.path = p then
          match x.node with
          | .file content => ⟨p, .file (content ++ t)⟩
          | .dir _ => x
        else x) :: appendFile rest p t := by
      simp [appendFile]
    rw [hrep]
    by_cases hx : x.path = p
    · by_cases hq : q = p
      · subst hq
        cases hn : x.node <;> simp [lookup, hx, hn]
      · have hxq : ¬ x.path = q := fun h => hq (h ▸ hx ▸ rfl)
        have hpq : ¬ p = q := fun h => hq h.symm
        cases hn : x.node <;> simp [lookup, hx, hn, hq, hxq, hpq, ih]
    · by_cases hq : q = p
      · subst hq
        simp only [hx, if_false, lookup, ih, if_true]
      · simp only [hx, if_false, lookup, ih, hq]

theorem lookup_insert_ne (fs : FS) (e : Entry) (q : Path) (h : q ≠ e.path) :
    lookup (insert fs e) q = lookup fs q := by
  have he : ¬ e.path = q := fun h2 => h h2.symm
  induction fs with
  | nil => simp [insert, lookup, he]
  | cons x rest ih =>
    by_cases hlt : pathLt e.path x.path = true
    · simp [insert, hlt, lookup, he]
    · simp [insert, hlt, lookup, ih]

theorem lookup_insert_self (fs : FS) (e : Entry) (h : lookup fs e.path = none) :
    lookup (insert fs e) e.path = some e.node := by
  induction fs with
  | nil => simp [insert, lookup]
  | cons x rest ih =>
    have hx : ¬ x.path = e.path := by
      intro hx; simp [lookup, hx] at h
    have hrest : lookup rest e.path = none := by simpa [lookup, hx] using h
    by_cases hlt : pathLt e.path x.path = true
    · simp [insert, hlt, lookup]
    · simp [insert, hlt, lookup, hx, ih hrest]

/-! ## One file: extraction and deduplication -/

theorem lines_short_or_long (content : Str) :
    (∀ l ∈ rawLines content, byteLen l < maxScanTokenSize) ∨
      ∃ l ∈ rawLines content, maxScanTokenSize ≤ byteLen l := by
  by_cases h : ∀ l ∈ rawLines content, byteLen l < maxScanTokenSize
  · exact Or.inl h
  · right
    push_neg at h
    exact h

theorem extract_ok (fs : FS) (p : Path) (content : Str)
    (hfile : lookup fs p = some (.file content))
    (hshort : ∀ l ∈ rawLines content, byteLen l < maxScanTokenSize) :
    extractAndRemoveUsings fs p =
      ((directives content, none), write fs p (writeLines (body content))) := by
  simp [extractAndRemoveUsings, OpenFile, hfile, scanLines_short content hshort, extractLoop_eq,
    directives, body]

theorem extract_scan_error (fs : FS) (p : Path) (content : Str)
    (hfile : lookup fs p = some (.file content))
    (hlong : ∃ l ∈ rawLines content, maxScanTokenSize ≤ byteLen l) :
    extractAndRemoveUsings fs p = (([], some .ErrTooLong), fs) := by
  have h := scanLines_long content hlong
  rcases hs : scanLines content with ⟨toks, err⟩
  rw [hs] at h
  simp only at h
  subst h
  simp [extractAndRemoveUsings, OpenFile, hfile, hs]

theorem extract_open_error (fs : FS) (p : Path) (h : ∀ c, lookup fs p ≠ some (.file c)) :
    (extractAndRemoveUsings fs p).2 = fs ∧ (extractAndRemoveUsings fs p).1.1 = [] ∧
      (extractAndRemoveUsings fs p).1.2 ≠ none := by
  unfold extractAndRemoveUsings OpenFile
  cases hl : lookup fs p with
  | none => simp
  | some n =>
    cases n with
    | file c => exact absurd hl (h c)
    | dir r => simp

theorem dedup_ok (fs : FS) (p : Path) (content : Str)
    (hfile : lookup fs p = some (.file content))
    (hshort : ∀ l ∈ rawLines content, byteLen l < maxScanTokenSize) :
    removeDuplicatesFromFile fs p =
      (none, write fs p (writeLines (firstOccurrences (fileLines content)))) := by
  simp [removeDuplicatesFromFile, OpenFile, hfile, scanLines_short content hshort,
    dedupLoop_firstOccurrences]

theorem dedup_scan_error (fs : FS) (p : Path) (content : Str)
    (hfile : lookup fs p = some (.file content))
    (hlong : ∃ l ∈ rawLines content, maxScanTokenSize ≤ byteLen l) :
    removeDuplicatesFromFile fs p = (some .ErrTooLong, fs) := by
  have h := scanLines_long content hlong
  rcases hs : scanLines content with ⟨toks, err⟩
  rw [hs] at h
  simp only at h
  subst h
  simp [removeDuplicatesFromFile, OpenFile, hfile, hs]

theorem dedup_open_error (fs : FS) (p : Path) (h : ∀ c, lookup fs p ≠ some (.file c)) :
    (removeDuplicatesFromFile fs p).2 = fs := by
  unfold removeDuplicatesFromFile OpenFile
  cases hl : lookup fs p with
  | none => simp
  | some n =>
    cases n with
    | file c => exact absurd hl (h c)
    | dir r => simp

theorem lookup_file_or_not (fs : FS) (p : Path) :
    (∃ c, lookup fs p = some (.file c)) ∨ ∀ c, lookup fs p ≠ some (.file c) := by
  cases hl : lookup fs p with
  | none => right; simp
  | some n =>
    cases n with
    | file c => left; exact ⟨c, rfl⟩
    | dir r => right; simp

theorem longLine_len : byteLen longLine = maxScanTokenSize := by
  have h : Char.utf8Size 'x' = 1 := by decide
  rw [longLine, byteLen_replicate, h, Nat.mul_one]

theorem fileLines_writeLines (ls : List Str) (h : ∀ l ∈ ls, '\n' ∉ l) :
    fileLines (writeLines ls) = ls.map dropCR := by
  rw [fileLines, rawLines_writeLines ls h]

theorem filter_isUsing_map_dropCR (ls : List Str) (h : ∀ l ∈ ls, isUsing l = false) :
    (ls.map dropCR).filter isUsing = [] := by
  rw [List.filter_eq_nil_iff]
  intro x hx
  obtain ⟨l, hl, rfl⟩ := List.mem_map.mp hx
  rw [isUsing_dropCR, h l hl]
  simp

theorem body_not_using (content : Str) : ∀ l ∈ body content, isUsing l = false := by
  intro l hl
  have := (List.mem_filter.mp hl).2
  simpa using this

theorem body_subset (content : Str) : ∀ l ∈ body content, l ∈ fileLines content :=
  fun _ hl => List.mem_of_mem_filter hl

theorem longLine_no_newline : '\n' ∉ longLine :=
  fun h => absurd (List.mem_replicate.mp h).2 (by decide)

theorem createGlobalUsingsFile_existing (fs : FS) (rootDir : Path) (usings : List Str) (c : Str)
    (hfile : lookup fs (rootDir ++ ["GlobalUsings.cs"]) = some (.file c)) :
    createGlobalUsingsFile fs rootDir usings =
      (none,
        (removeDuplicatesFromFile
          (appendFile fs (rootDir ++ ["GlobalUsings.cs"]) (writeLines (usings.map globalLine)))
          (rootDir ++ ["GlobalUsings.cs"])).2) := by
  simp [createGlobalUsingsFile, OpenAppend, hfile]

theorem lookup_appendFile_self (fs : FS) (p : Path) (c t : Str)
    (hfile : lookup fs p = some (.file c)) :
    lookup (appendFile fs p t) p = some (.file (c ++ t)) := by
  simp [lookup_appendFile, hfile]

theorem appendFile_second (e : Entry) (p : Path) (c t : Str) (h : e.path ≠ p) :
    appendFile [e, ⟨p, .file c⟩] p t = [e, ⟨p, .file (c ++ t)⟩] := by
  simp [appendFile, h]

/-! ## What a run leaves untouched -/

theorem extract_frame (fs : FS) (p q : Path) (h : q ≠ p) :
    lookup (extractAndRemoveUsings fs p).2 q = lookup fs q := by
  unfold extractAndRemoveUsings
  cases OpenFile fs p with
  | error err => rfl
  | ok content =>
    simp only
    rcases hs : scanLines content with ⟨toks, err⟩
    cases err with
    | some e => rfl
    | none => exact lookup_write_ne fs p q _ h

theorem dedup_frame (fs : FS) (p q : Path) (h : q ≠ p) :
    lookup (removeDuplicatesFromFile fs p).2 q = lookup fs q := by
  unfold removeDuplicatesFromFile
  cases OpenFile fs p with
  | error err => rfl
  | ok content =>
    simp only
    rcases hs : scanLines content with ⟨toks, err⟩
    cases err with
    | some e => rfl
    | none => exact lookup_write_ne fs p q _ h

theorem lookup_appendFile_ne (fs : FS) (p q : Path) (t : Str) (h : q ≠ p) :
    lookup (appendFile fs p t) q = lookup fs q := by
  simp [lookup_appendFile, h]

theorem OpenAppend_frame (fs fs1 : FS) (p q : Path) (h : q ≠ p)
    (ho : OpenAppend fs p = .ok fs1) : lookup fs1 q = lookup fs q := by
  unfold OpenAppend at ho
  split at ho
  · cases ho; rfl
  · cases ho
  · split at ho
    · cases ho; exact lookup_insert_ne fs _ q h
    · cases ho
    · cases ho

theorem createGlobalUsingsFile_frame (fs : FS) (rootDir : Path) (usings : List Str) (q : Path)
    (h : q ≠ rootDir ++ ["GlobalUsings.cs"]) :
    lookup (createGlobalUsingsFile fs rootDir usings).2 q = lookup fs q := by
  unfold createGlobalUsingsFile
  cases ho : OpenAppend fs (rootDir ++ ["GlobalUsings.cs"]) with
  | error err => rfl
  | ok fs1 =>
    simp only
    rw [dedup_frame _ _ q h, lookup_appendFile_ne _ _ q _ h]
    exact OpenAppend_frame fs fs1 _ q h ho

theorem walkEntries_under (fs : FS) (root : Path) (es : List Entry)
    (h : walkEntries fs root = some es) : ∀ e ∈ es, root <+: e.path := by
  unfold walkEntries at h
  split at h
  · cases h
  · cases h
    intro e he
    rw [List.mem_singleton.mp he]
  · cases h
    intro e he
    exact List.isPrefixOf_iff_prefix.mp (List.mem_filter.mp he).2

theorem processCSFiles_visit_frame (es : List Entry) :
    ∀ (fs : FS) (acc : List Str) (q : Path), (∀ e ∈ es, e.path ≠ q) →
      lookup (processCSFiles.visit es fs acc).2 q = lookup fs q := by
  induction es with
  | nil => intro fs acc q _; rfl
  | cons e rest ih =>
    intro fs acc q hq
    have he : q ≠ e.path := fun h => hq e (by simp) h.symm
    have hrest : ∀ x ∈ rest, x.path ≠ q := fun x hx => hq x (by simp [hx])
    unfold processCSFiles.visit
    split
    · rfl
    · split
      · rcases hx : extractAndRemoveUsings fs e.path with ⟨⟨us, err⟩, fs1⟩
        have hf := extract_frame fs e.path q he
        rw [hx] at hf
        cases err with
        | some er => exact hf
        | none =>
          simp only
          rw [ih fs1 _ q hrest]
          exact hf
      · exact ih fs acc q hrest

theorem processCSFiles_frame (fs : FS) (rootDir q : Path) (h : ¬ rootDir <+: q) :
    lookup (processCSFiles fs rootDir).2 q = lookup fs q := by
  unfold processCSFiles
  cases hw : walkEntries fs rootDir with
  | none => rfl
  | some es =>
    apply processCSFiles_visit_frame
    intro e he heq
    exact h (heq ▸ walkEntries_under fs rootDir es hw e he)

theorem transform_frame (dirs : List Path) :
    ∀ (fs : FS) (out : List Msg) (q : Path), (∀ r ∈ dirs, ¬ r <+: q) →
      lookup (main.transform dirs fs out).2 q = lookup fs q := by
  induction dirs with
  | nil => intro fs out q _; rfl
  | cons value rest ih =>
    intro fs out q hq
    have hv : ¬ value <+: q := hq value (by simp)
    have hg : q ≠ value ++ ["GlobalUsings.cs"] := fun h => hv (h ▸ List.prefix_append _ _)
    have hrest : ∀ r ∈ rest, ¬ r <+: q := fun r hr => hq r (by simp [hr])
    unfold main.transform
    rcases hp : processCSFiles fs value with ⟨⟨us, err⟩, fs1⟩
    have h1 := processCSFiles_frame fs value q hv
    rw [hp] at h1
    cases err with
    | some er => exact h1
    | none =>
      simp only
      rcases hc : createGlobalUsingsFile fs1 value us with ⟨err2, fs2⟩
      have h2 := createGlobalUsingsFile_frame fs1 value us q hg
      rw [hc] at h2
      cases err2 with
      | some er => simp only; rw [h2, h1]
      | none => simp only; rw [ih fs2 _ q hrest, h2, h1]

theorem findDirs_visit_paths (fs : FS) (es : List Entry) :
    ∀ result : List Path, ∀ r ∈ (findDirectoriesWithCSProj.visit fs es result).1,
      r ∈ result ∨ ∃ e ∈ es, e.path = r := by
  induction es with
  | nil => intro result r hr; exact Or.inl hr
  | cons e rest ih =>
    intro result r hr
    unfold findDirectoriesWithCSProj.visit at hr
    split at hr
    · rcases ih result r hr with h | ⟨x, hx, hxr⟩
      · exact Or.inl h
      · exact Or.inr ⟨x, by simp [hx], hxr⟩
    · split at hr
      · split at hr
        · rcases ih _ r hr with h | ⟨x, hx, hxr⟩
          · rcases List.mem_append.mp h with h | h
            · exact Or.inl h
            · exact Or.inr ⟨e, by simp, (List.mem_singleton.mp h).symm⟩
          · exact Or.inr ⟨x, by simp [hx], hxr⟩
        · rcases ih result r hr with h | ⟨x, hx, hxr⟩
          · exact Or.inl h
          · exact Or.inr ⟨x, by simp [hx], hxr⟩
      · exact Or.inl hr

theorem findDirs_under (fs : FS) (rootDir : Path) :
    ∀ r ∈ (findDirectoriesWithCSProj fs (some rootDir)).1, rootDir <+: r := by
  intro r hr
  unfold findDirectoriesWithCSProj at hr
  simp only at hr
  cases hw : walkEntries fs rootDir with
  | none => rw [hw] at hr; simp at hr
  | some es =>
    rw [hw] at hr
    rcases findDirs_visit_paths fs es [] r hr with h | ⟨e, he, her⟩
    · simp at h
    · exact her ▸ walkEntries_under fs rootDir es hw e he

theorem findDirs_empty_path (fs : FS) : (findDirectoriesWithCSProj fs none).1 = [] := by
  simp [findDirectoriesWithCSProj]

theorem MkdirAll_go_files (ps : List Path) :
    ∀ (fs : FS) (q : Path) (c : Str), lookup (MkdirAll.go ps fs).2 q = some (.file c) →
      lookup fs q = some (.file c) := by
  induction ps with
  | nil => intro fs q c h; exact h
  | cons p rest ih =>
    intro fs q c h
    unfold MkdirAll.go at h
    split at h
    · exact h
    · exact ih fs q c h
    · rename_i hnone
      have h2 := ih _ q c h
      by_cases hq : q = p
      · subst hq
        rw [lookup_insert_self fs ⟨q, .dir true⟩ hnone] at h2
        cases h2
      · rwa [lookup_insert_ne fs ⟨p, .dir true⟩ q hq] at h2

theorem MkdirAll_files (env : Env) (fs : FS) (p q : Path) (c : Str)
    (h : lookup (MkdirAll env fs p).2 q = some (.file c)) : lookup fs q = some (.file c) := by
  unfold MkdirAll at h
  split at h
  · exact h
  · exact MkdirAll_go_files _ fs q c h

theorem lookup_put_ne (fs : FS) (e : Entry) (q : Path) (h : q ≠ e.path) :
    lookup (put fs e) q = lookup fs q := by
  unfold put
  split
  · simp [lookup_replace, h]
  · exact lookup_insert_ne fs e q h

theorem Copy_frame (env : Env) (fs : FS) (dest q : Path) (h : ¬ dest <+: q) :
    lookup (Copy env fs dest) q = lookup fs q := by
  unfold Copy
  generalize env.copied = l
  induction l generalizing fs with
  | nil => rfl
  | cons e rest ih =>
    rw [List.foldl_cons, ih]
    apply lookup_put_ne
    intro hq
    exact h (hq ▸ List.prefix_append _ _)

/-- The working directory is `""` or the scratch path; outside of it no file
appears or changes when it is set up. -/
theorem createWorkingDirectory_files (env : Env) (fs : FS) (sourceDir q : Path) (c : Str)
    (h : lookup (createWorkingDirectory env fs sourceDir).2.2 q = some (.file c))
    (hq : ∀ wd, (createWorkingDirectory env fs sourceDir).1 = some wd → ¬ wd <+: q) :
    lookup fs q = some (.file c) := by
  unfold createWorkingDirectory at h hq
  rcases hm : MkdirAll env fs (sourceDir.dropLast ++ [".guext-tmp", env.uuid]) with ⟨err, fs1⟩
  have hfiles := MkdirAll_files env fs (sourceDir.dropLast ++ [".guext-tmp", env.uuid]) q c
  rw [hm] at h hq hfiles
  cases err with
  | some er => exact hfiles h
  | none =>
    simp only at h hq
    rw [Copy_frame env fs1 _ q (hq _ rfl)] at h
    exact hfiles h

theorem createWorkingDirectory_path (env : Env) (fs : FS) (sourceDir : Path) :
    (createWorkingDirectory env fs sourceDir).1 = none ∨
      (createWorkingDirectory env fs sourceDir).1 =
        some (sourceDir.dropLast ++ [".guext-tmp", env.uuid]) := by
  unfold createWorkingDirectory
  rcases hm : MkdirAll env fs (sourceDir.dropLast ++ [".guext-tmp", env.uuid]) with ⟨err, fs1⟩
  cases err with
  | some er => left; rfl
  | none => right; rfl

theorem createWorkingDirectory_msgs (env : Env) (fs : FS) (sourceDir r : Path) :
    Msg.processing r ∉ (createWorkingDirectory env fs sourceDir).2.1 := by
  unfold createWorkingDirectory
  rcases hm : MkdirAll env fs (sourceDir.dropLast ++ [".guext-tmp", env.uuid]) with ⟨err, fs1⟩
  cases err <;> simp

/-- The last element of a path that is a prefix of its own scratch path. -/
theorem scratch_inside (dir : Path) (uuid : String) (hne : dir ≠ [])
    (h : dir <+: dir.dropLast ++ [".guext-tmp", uuid]) : dir.getLast? = some ".guext-tmp" := by
  obtain ⟨t, ht⟩ := h
  have hd : dir = dir.dropLast ++ [dir.getLast hne] := (List.dropLast_append_getLast hne).symm
  rw [List.getLast?_eq_getLast dir hne]
  have h3 : dir.dropLast ++ ([dir.getLast hne] ++ t) = dir.dropLast ++ [".guext-tmp", uuid] := by
    rw [← List.append_assoc, ← hd, ht]
  have h4 := List.append_cancel_left h3
  simp only [List.singleton_append, List.cons.injEq] at h4
  rw [h4.1]

/-- With isolation, a file that a run creates or changes lies in the working
directory, which is then the scratch path and not `""`. -/
theorem main_isolated_frame (env : Env) (showVersion : Bool) (dir : Path) (fs : FS) (q : Path)
    (c : Str) (hnew : lookup (main env showVersion (some dir) false fs).2 q = some (.file c))
    (hold : lookup fs q ≠ some (.file c)) :
    (createWorkingDirectory env fs dir).1 = some (dir.dropLast ++ [".guext-tmp", env.uuid]) ∧
      dir.dropLast ++ [".guext-tmp", env.uuid] <+: q := by
  by_contra hcon
  have hwd : ∀ wd, (createWorkingDirectory env fs dir).1 = some wd → ¬ wd <+: q := by
    intro wd hwd hp
    rcases createWorkingDirectory_path env fs dir with h | h
    · rw [h] at hwd; cases hwd
    · have : wd = dir.dropLast ++ [".guext-tmp", env.uuid] := by
        rw [h] at hwd; exact (Option.some.inj hwd).symm
      exact hcon ⟨h, this ▸ hp⟩
  apply hold
  unfold main at hnew
  simp only at hnew
  rcases hscan : findDirectoriesWithCSProj fs (some dir) with ⟨projectDirs, err⟩
  rw [hscan] at hnew
  cases err with
  | some er => exact hnew
  | none =>
    simp only at hnew
    split at hnew
    · exact hnew
    · simp only [Bool.false_eq_true, if_false] at hnew
      have hroots : ∀ r ∈ (findDirectoriesWithCSProj (createWorkingDirectory env fs dir).2.2
          (createWorkingDirectory env fs dir).1).1, ¬ r <+: q := by
        intro r hr hrq
        cases h0 : (createWorkingDirectory env fs dir).1 with
        | none =>
          rw [h0, findDirs_empty_path] at hr
          simp at hr
        | some wd =>
          rw [h0] at hr
          exact hwd wd h0 (List.IsPrefix.trans (findDirs_under _ wd r hr) hrq)
      rw [transform_frame _ _ _ q hroots] at hnew
      exact createWorkingDirectory_files env fs dir q c hnew hwd

theorem transform_msgs (dirs : List Path) :
    ∀ (fs : FS) (out : List Msg) (r : Path),
      Msg.processing r ∈ (main.transform dirs fs out).1 → Msg.processing r ∈ out ∨ r ∈ dirs := by
  induction dirs with
  | nil => intro fs out r h; exact Or.inl h
  | cons value rest ih =>
    intro fs out r h
    unfold main.transform at h
    rcases hp : processCSFiles fs value with ⟨⟨us, err⟩, fs1⟩
    rw [hp] at h
    cases err with
    | some er =>
      simp only [List.mem_append, List.mem_cons, Msg.processing.injEq, List.mem_singleton,
        List.not_mem_nil, or_false, reduceCtorEq] at h
      rcases h with h | h
      · exact Or.inl h
      · exact Or.inr (by simp [h])
    | none =>
      simp only at h
      rcases hc : createGlobalUsingsFile fs1 value us with ⟨err2, fs2⟩
      rw [hc] at h
      cases err2 with
      | some er =>
        simp only [List.mem_append, List.mem_cons, Msg.processing.injEq, List.mem_singleton,
          List.not_mem_nil, or_false, reduceCtorEq] at h
        rcases h with h | h
        · exact Or.inl h
        · exact Or.inr (by simp [h])
      | none =>
        simp only at h
        rcases ih fs2 _ r h with h | h
        · simp only [List.mem_append, List.mem_singleton, Msg.processing.injEq] at h
          rcases h with h | h
          · exact Or.inl h
          · exact Or.inr (by simp [h])
        · exact Or.inr (by simp [h])

/-- With isolation, a project directory that a run processes lies in the
working directory, which is then the scratch path and not `""`. -/
theorem main_isolated_roots (env : Env) (showVersion : Bool) (dir : Path) (fs : FS) (r : Path)
    (hr : Msg.processing r ∈ (main env showVersion (some dir) false fs).1) :
    (createWorkingDirectory env fs dir).1 = some (dir.dropLast ++ [".guext-tmp", env.uuid]) ∧
      dir.dropLast ++ [".guext-tmp", env.uuid] <+: r := by
  have hver : Msg.processing r ∉ (if showVersion then [Msg.versionInfo] else []) := by
    cases showVersion <;> simp
  unfold main at hr
  simp only at hr
  rcases hscan : findDirectoriesWithCSProj fs (some dir) with ⟨projectDirs, err⟩
  rw [hscan] at hr
  cases err with
  | some er =>
    simp only [List.mem_append, List.mem_singleton] at hr
    rcases hr with hr | hr
    · exact absurd hr hver
    · cases hr
  | none =>
    simp only at hr
    split at hr
    · simp only [List.mem_append, List.mem_singleton] at hr
      rcases hr with hr | hr
      · exact absurd hr hver
      · cases hr
    · simp only [Bool.false_eq_true, if_false] at hr
      rcases transform_msgs _ _ _ r hr with h | h
      · exfalso
        rcases List.mem_append.mp h with h | h
        · exact hver h
        · exact createWorkingDirectory_msgs env fs dir r h
      · rcases createWorkingDirectory_path env fs dir with h0 | h0
        · rw [h0, findDirs_empty_path] at h
          simp at h
        · rw [h0] at h
          exact ⟨h0, findDirs_under _ _ r h⟩

/-! ## One project root -/

theorem lookup_of_mem (fs : FS) (h : (fs.map Entry.path).Nodup) :
    ∀ e ∈ fs, lookup fs e.path = some e.node := by
  induction fs with
  | nil => intro e he; simp at he
  | cons x rest ih =>
    intro e he
    rw [List.map_cons, List.nodup_cons] at h
    rcases List.mem_cons.mp he with rfl | he
    · simp [lookup]
    · have hne : ¬ x.path = e.path := fun hx => h.1 (hx ▸ List.mem_map_of_mem _ he)
      simp only [lookup, hne, if_false]
      exact ih h.2 e he

theorem not_mem_of_lookup_none (fs : FS) (p : Path) (h : lookup fs p = none) :
    ∀ e ∈ fs, e.path ≠ p := by
  induction fs with
  | nil => intro e he; simp at he
  | cons x rest ih =>
    intro e he
    by_cases hx : x.path = p
    · simp [lookup, hx] at h
    · rcases List.mem_cons.mp he with rfl | he
      · exact hx
      · exact ih (by simpa [lookup, hx] using h) e he

theorem sourceFiles_mem (es : List Entry) (f : Path × Str) (hf : f ∈ sourceFiles es) :
    ∃ e ∈ es, e.path = f.1 ∧ e.node = .file f.2 ∧ Ext e.path = csExt := by
  obtain ⟨e, he, hfe⟩ := List.mem_filterMap.mp hf
  refine ⟨e, he, ?_⟩
  cases hn : e.node with
  | dir r => simp [hn] at hfe
  | file c =>
    by_cases hx : Ext e.path = csExt
    · simp only [hn, hx, if_true, Option.some.injEq] at hfe
      subst hfe
      exact ⟨rfl, rfl, hx⟩
    · simp [hn, hx] at hfe

theorem extract_keeps_dir (fs : FS) (p q : Path) (r : Bool) (h : lookup fs q = some (.dir r)) :
    lookup (extractAndRemoveUsings fs p).2 q = some (.dir r) := by
  by_cases hq : q = p
  · subst hq
    simp [extractAndRemoveUsings, OpenFile, h]
  · rw [extract_frame fs p q hq, h]

theorem visit_keeps_dir (es : List Entry) :
    ∀ (fs : FS) (acc : List Str) (q : Path) (r : Bool), lookup fs q = some (.dir r) →
      lookup (processCSFiles.visit es fs acc).2 q = some (.dir r) := by
  induction es with
  | nil => intro fs acc q r h; exact h
  | cons e rest ih =>
    intro fs acc q r h
    unfold processCSFiles.visit
    split
    · exact h
    · split
      · rcases hx : extractAndRemoveUsings fs e.path with ⟨⟨us, err⟩, fs1⟩
        have hf := extract_keeps_dir fs e.path q r h
        rw [hx] at hf
        cases err with
        | some er => exact hf
        | none => exact ih fs1 _ q r hf
      · exact ih fs acc q r h

theorem visit_ok (es : List Entry) :
    ∀ (fs : FS) (acc : List Str), (∀ e ∈ es, e.node ≠ .dir false) →
      (∀ e ∈ es, Ext e.path = csExt → isFile e.node = true) →
      (∀ f ∈ sourceFiles es, lookup fs f.1 = some (.file f.2) ∧
        ∀ l ∈ rawLines f.2, byteLen l < maxScanTokenSize) →
      (es.map Entry.path).Nodup →
      (processCSFiles.visit es fs acc).1 =
          (acc ++ (sourceFiles es).flatMap (fun f => directives f.2), none) ∧
        ∀ f ∈ sourceFiles es,
          lookup (processCSFiles.visit es fs acc).2 f.1 = some (.file (writeLines (body f.2))) := by
  induction es with
  | nil => intro fs acc _ _ _ _; simp [processCSFiles.visit, sourceFiles]
  | cons e rest ih =>
    intro fs acc hdir hcs hsrc hnd
    rw [List.map_cons, List.nodup_cons] at hnd
    have hdir2 : ∀ x ∈ rest, x.node ≠ .dir false := fun x hx => hdir x (by simp [hx])
    have hcs2 : ∀ x ∈ rest, Ext x.path = csExt → isFile x.node = true :=
      fun x hx => hcs x (by simp [hx])
    have hne : e.node ≠ .dir false := hdir e (by simp)
    by_cases hext : Ext e.path = csExt
    · have hfile := hcs e (by simp) hext
      cases hn : e.node with
      | dir r => rw [hn] at hfile; cases hfile
      | file c =>
        have hsf : sourceFiles (e :: rest) = (e.path, c) :: sourceFiles rest := by
          simp [sourceFiles, hn, hext]
        rw [hsf] at hsrc ⊢
        obtain ⟨hlk, hshort⟩ := hsrc (e.path, c) (by simp)
        have hex := extract_ok fs e.path c hlk hshort
        have hsrc2 : ∀ f ∈ sourceFiles rest,
            lookup (write fs e.path (writeLines (body c))) f.1 = some (.file f.2) ∧
              ∀ l ∈ rawLines f.2, byteLen l < maxScanTokenSize := by
          intro f hf
          obtain ⟨x, hx, hxp, _, _⟩ := sourceFiles_mem rest f hf
          have hfne : f.1 ≠ e.path := fun h => hnd.1 (h ▸ hxp ▸ List.mem_map_of_mem _ hx)
          rw [lookup_write_ne _ _ _ _ hfne]
          exact hsrc f (by simp [hf])
        have hstep : processCSFiles.visit (e :: rest) fs acc =
            processCSFiles.visit rest (write fs e.path (writeLines (body c)))
              (acc ++ directives c) := by
          rw [processCSFiles.visit]
          simp [hn, hext, hex]
        rw [hstep]
        obtain ⟨h1, h2⟩ := ih (write fs e.path (writeLines (body c))) (acc ++ directives c)
          hdir2 hcs2 hsrc2 hnd.2
        refine ⟨?_, ?_⟩
        · rw [h1]; simp
        · intro f hf
          rcases List.mem_cons.mp hf with rfl | hf
          · rw [processCSFiles_visit_frame rest _ _ e.path
              (fun x hx hxe => hnd.1 (hxe ▸ List.mem_map_of_mem _ hx))]
            exact lookup_write_self fs e.path c _ hlk
          · exact h2 f hf
    · have hsf : sourceFiles (e :: rest) = sourceFiles rest := by
        cases hn : e.node <;> simp [sourceFiles, hn, hext]
      have hstep : processCSFiles.visit (e :: rest) fs acc = processCSFiles.visit rest fs acc := by
        rw [processCSFiles.visit]
        simp [hne, hext]
      rw [hsf] at hsrc ⊢
      rw [hstep]
      exact ih fs acc hdir2 hcs2 hsrc hnd.2

theorem dropCR_eq_self (l : Str) (h : l.getLast? ≠ some '\r') : dropCR l = l := by
  simp [dropCR, h]

theorem getLast_of_dropCR_eq_self (l : Str) (h : dropCR l = l) : l.getLast? ≠ some '\r' := by
  intro hl
  rcases List.eq_nil_or_concat l with rfl | ⟨l0, c, rfl⟩
  · simp at hl
  · rw [List.concat_eq_append] at h hl
    rw [List.getLast?_concat] at hl
    cases hl
    rw [dropCR_concat_cr] at h
    have := congrArg List.length h
    simp at this

theorem dropCR_globalLine (u : Str) (h : dropCR u = u) : dropCR (globalLine u) = globalLine u := by
  apply dropCR_eq_self
  have hu := getLast_of_dropCR_eq_self u h
  have hg : "global ".toList.getLast? = some ' ' := by decide
  rw [globalLine, List.getLast?_append, hg]
  cases hl : u.getLast? with
  | none => simp
  | some x =>
    rw [hl] at hu
    simpa using hu

theorem byteLen_globalLine (u : Str) : byteLen (globalLine u) = 7 + byteLen u := by
  have hg : byteLen "global ".toList = 7 := by decide
  rw [globalLine, byteLen_append, hg]

theorem globalLine_no_newline (u : Str) (h : '\n' ∉ u) : '\n' ∉ globalLine u := by
  intro hm
  rcases List.mem_append.mp hm with h1 | h1
  · exact absurd h1 (by decide)
  · exact h h1

/-- An aggregate file that does not exist yet is created with the first
occurrences of the lines written for the directives. -/
theorem createGlobalUsingsFile_new (fs : FS) (rootDir : Path) (U : List Str) (r : Bool)
    (hnone : lookup fs (rootDir ++ ["GlobalUsings.cs"]) = none)
    (hdir : lookup fs rootDir = some (.dir r))
    (hnl : ∀ l ∈ U.map globalLine, '\n' ∉ l)
    (hshort : ∀ l ∈ U.map globalLine, byteLen l < maxScanTokenSize)
    (hcr : ∀ l ∈ U.map globalLine, dropCR l = l) :
    (createGlobalUsingsFile fs rootDir U).1 = none ∧
      lookup (createGlobalUsingsFile fs rootDir U).2 (rootDir ++ ["GlobalUsings.cs"]) =
        some (.file (writeLines (firstOccurrences (U.map globalLine)))) := by
  have hopen : OpenAppend fs (rootDir ++ ["GlobalUsings.cs"]) =
      .ok (insert fs ⟨rootDir ++ ["GlobalUsings.cs"], .file []⟩) := by
    simp [OpenAppend, hnone, hdir]
  have h2 : lookup (insert fs ⟨rootDir ++ ["GlobalUsings.cs"], .file []⟩)
      (rootDir ++ ["GlobalUsings.cs"]) = some (.file []) :=
    lookup_insert_self fs ⟨rootDir ++ ["GlobalUsings.cs"], .file []⟩ hnone
  have h3 := lookup_appendFile_self _ (rootDir ++ ["GlobalUsings.cs"]) []
    (writeLines (U.map globalLine)) h2
  rw [List.nil_append] at h3
  have hshort2 : ∀ l ∈ rawLines (writeLines (U.map globalLine)), byteLen l < maxScanTokenSize := by
    rw [rawLines_writeLines _ hnl]; exact hshort
  have hfl : fileLines (writeLines (U.map globalLine)) = U.map globalLine := by
    rw [fileLines_writeLines _ hnl]; exact map_dropCR_id _ hcr
  have hd := dedup_ok _ (rootDir ++ ["GlobalUsings.cs"]) _ h3 hshort2
  rw [hfl] at hd
  simp only [createGlobalUsingsFile, hopen, hd]
  exact ⟨trivial, lookup_write_self _ _ _ _ h3⟩

theorem walkEntries_dir (fs : FS) (root : Path) (r : Bool)
    (hroot : lookup fs root = some (.dir r)) :
    walkEntries fs root = some (fs.filter fun e => root.isPrefixOf e.path) := by
  simp [walkEntries, hroot]

/-! ## A directive the scanner accepts and the aggregate file does not -/

theorem longUsing_no_newline : '\n' ∉ longUsing := by
  intro h
  rcases List.mem_append.mp h with h | h
  · exact absurd h (by decide)
  · exact absurd (List.mem_replicate.mp h).2 (by decide)

theorem longUsing_len : byteLen longUsing = maxScanTokenSize - 7 := by
  have h1 : byteLen "using ".toList = 6 := by decide
  have h2 : Char.utf8Size 'x' = 1 := by decide
  rw [longUsing, byteLen_append, h1, byteLen_replicate, h2]
  decide

theorem longUsing_last : longUsing.getLast? = some 'x' := by
  have h : maxScanTokenSize - 13 = 65522 + 1 := by decide
  rw [longUsing, h, List.replicate_succ', ← List.append_assoc, List.getLast?_concat]

theorem longUsing_dropCR : dropCR longUsing = longUsing :=
  dropCR_eq_self _ (by rw [longUsing_last]; decide)

theorem longUsing_isUsing : isUsing longUsing = true := by
  rw [isUsing_iff]
  refine ⟨List.replicate (maxScanTokenSize - 13) 'x', rfl, 'x', ?_, by decide⟩
  exact List.mem_replicate.mpr ⟨by decide, rfl⟩

theorem longUsing_lines :
    rawLines (writeLines [longUsing, longUsing]) = [longUsing, longUsing] ∧
      directives (writeLines [longUsing, longUsing]) = [longUsing, longUsing] ∧
      body (writeLines [longUsing, longUsing]) = [] := by
  have hraw : rawLines (writeLines [longUsing, longUsing]) = [longUsing, longUsing] := by
    apply rawLines_writeLines
    intro l hl
    simp only [List.mem_cons, List.mem_singleton, List.not_mem_nil, or_false, or_self] at hl
    rw [hl]; exact longUsing_no_newline
  have hfl : fileLines (writeLines [longUsing, longUsing]) = [longUsing, longUsing] := by
    rw [fileLines, hraw]
    simp [longUsing_dropCR]
  refine ⟨hraw, ?_, ?_⟩
  · rw [directives, hfl]; simp [longUsing_isUsing]
  · rw [body, hfl]; simp [longUsing_isUsing]

theorem visit_cons_skip (e : Entry) (rest : List Entry) (fs : FS) (acc : List Str)
    (h1 : e.node ≠ .dir false) (h2 : Ext e.path ≠ csExt) :
    processCSFiles.visit (e :: rest) fs acc = processCSFiles.visit rest fs acc := by
  rw [processCSFiles.visit]
  simp [h1, h2]

theorem visit_cons_extract (e : Entry) (rest : List Entry) (fs fs1 : FS) (acc us : List Str)
    (h1 : e.node ≠ .dir false) (h2 : Ext e.path = csExt)
    (hex : extractAndRemoveUsings fs e.path = ((us, none), fs1)) :
    processCSFiles.visit (e :: rest) fs acc = processCSFiles.visit rest fs1 (acc ++ us) := by
  rw [processCSFiles.visit]
  simp [h1, h2, hex]

theorem treeLong_processed :
    processCSFiles treeLong ["p"] = (([longUsing, longUsing], none), treeLongStripped) := by
  have hw : walkEntries treeLong ["p"] = some treeLong := by
    rw [walkEntries_dir treeLong ["p"] true rfl]
    rfl
  have hshort : ∀ l ∈ rawLines (writeLines [longUsing, longUsing]),
      byteLen l < maxScanTokenSize := by
    rw [longUsing_lines.1]
    intro l hl
    simp only [List.mem_cons, List.mem_singleton, List.not_mem_nil, or_false, or_self] at hl
    rw [hl, longUsing_len]
    decide
  have hex := extract_ok treeLong ["p", "a.cs"] (writeLines [longUsing, longUsing]) rfl hshort
  rw [longUsing_lines.2.1, longUsing_lines.2.2] at hex
  have hwr : write treeLong ["p", "a.cs"] (writeLines []) =
      [⟨["p"], .dir true⟩, ⟨["p", "a.cs"], .file []⟩, ⟨["p", "p.csproj"], .file []⟩] := by
    simp [write, replace, treeLong, writeLines]
  rw [hwr] at hex
  rw [processCSFiles, hw]
  show processCSFiles.visit treeLong treeLong [] = _
  conv_lhs => arg 1; rw [treeLong]
  have e1 : Ext ["p"] ≠ csExt := by decide
  have e2 : Ext ["p", "a.cs"] = csExt := by decide
  have e3 : Ext ["p", "p.csproj"] ≠ csExt := by decide
  have n1 : (Node.dir true) ≠ .dir false := by decide
  have n2 : ∀ c : Str, (Node.file c) ≠ .dir false := fun c h => Node.noConfusion h
  rw [visit_cons_skip ⟨["p"], .dir true⟩ _ _ _ n1 e1,
    visit_cons_extract ⟨["p", "a.cs"], .file (writeLines [longUsing, longUsing])⟩ _ _ _ _ _
      (n2 _) e2 hex,
    visit_cons_skip ⟨["p", "p.csproj"], .file []⟩ _ _ _ (n2 _) e3]
  rfl

theorem treeLong_dedup :
    removeDuplicatesFromFile treeLongDone ["p", "GlobalUsings.cs"] =
      (some .ErrTooLong, treeLongDone) := by
  have hraw : rawLines (writeLines [globalLine longUsing, globalLine longUsing]) =
      [globalLine longUsing, globalLine longUsing] := by
    apply rawLines_writeLines
    intro l hl
    simp only [List.mem_cons, List.mem_singleton, List.not_mem_nil, or_false, or_self] at hl
    rw [hl]; exact globalLine_no_newline _ longUsing_no_newline
  apply dedup_scan_error treeLongDone ["p", "GlobalUsings.cs"]
    (writeLines [globalLine longUsing, globalLine longUsing]) (by simp [lookup, treeLongDone])
  rw [hraw]
  refine ⟨globalLine longUsing, List.mem_cons_self _ _, ?_⟩
  rw [byteLen_globalLine, longUsing_len]
  decide

theorem treeLong_open : OpenAppend treeLongStripped (["p"] ++ ["GlobalUsings.cs"]) =
    .ok [⟨["p"], .dir true⟩, ⟨["p", "GlobalUsings.cs"], .file []⟩,
      ⟨["p", "a.cs"], .file []⟩, ⟨["p", "p.csproj"], .file []⟩] := by
  rfl

theorem appendFile_four (e1 e3 e4 : Entry) (p : Path) (c t : Str) (h1 : e1.path ≠ p)
    (h3 : e3.path ≠ p) (h4 : e4.path ≠ p) :
    appendFile [e1, ⟨p, .file c⟩, e3, e4] p t = [e1, ⟨p, .file (c ++ t)⟩, e3, e4] := by
  simp [appendFile, h1, h3, h4]

theorem treeLong_append : appendFile [⟨["p"], .dir true⟩, ⟨["p", "GlobalUsings.cs"], .file []⟩,
      ⟨["p", "a.cs"], .file []⟩, ⟨["p", "p.csproj"], .file []⟩]
    (["p"] ++ ["GlobalUsings.cs"]) (writeLines ([longUsing, longUsing].map globalLine)) =
    treeLongDone := by
  rw [List.map_cons, List.map_cons, List.map_nil]
  have h := appendFile_four ⟨["p"], .dir true⟩ ⟨["p", "a.cs"], .file []⟩
    ⟨["p", "p.csproj"], .file []⟩ ["p", "GlobalUsings.cs"] []
    (writeLines [globalLine longUsing, globalLine longUsing]) (by decide) (by decide) (by decide)
  rw [List.nil_append] at h
  exact h

theorem treeLong_aggregate :
    createGlobalUsingsFile treeLongStripped ["p"] [longUsing, longUsing] =
      (none, treeLongDone) := by
  have hd : (removeDuplicatesFromFile treeLongDone (["p"] ++ ["GlobalUsings.cs"])).2 =
      treeLongDone := by
    have := treeLong_dedup
    simp only [List.cons_append, List.nil_append]
    rw [this]
  rw [createGlobalUsingsFile, treeLong_open]
  simp only
  rw [treeLong_append, hd]

theorem treeLong_run :
    main.transform [["p"]] treeLong [] = ([.processing ["p"]], treeLongDone) := by
  rw [main.transform, treeLong_processed]
  simp only
  rw [treeLong_aggregate]
  rfl

/-! ## Claims about one file -/

/-- C3, amended.  When no line of the file, taken without its terminator (a
newline, or a carriage return and a newline), still ends in a carriage
return, running `removeDuplicatesFromFile` twice in succession leaves the file
system, and so the file, exactly as running it once does; this holds too when
the run fails. -/
theorem removeDuplicatesFromFile_twice (fs : FS) (filePath : Path)
    (hcr : ∀ content, lookup fs filePath = some (.file content) →
      ∀ l ∈ fileLines content, dropCR l = l) :
    (removeDuplicatesFromFile (removeDuplicatesFromFile fs filePath).2 filePath).2 =
      (removeDuplicatesFromFile fs filePath).2 := by
  rcases lookup_file_or_not fs filePath with ⟨c, hc⟩ | hno
  · rcases lines_short_or_long c with hshort | hlong
    · have hD : ∀ l ∈ firstOccurrences (fileLines c), l ∈ fileLines c :=
        fun l hl => (mem_firstOccurrences _ l).mp hl
      have hnl : ∀ l ∈ firstOccurrences (fileLines c), '\n' ∉ l :=
        fun l hl => fileLines_no_newline c l (hD l hl)
      have hfl : fileLines (writeLines (firstOccurrences (fileLines c))) =
          firstOccurrences (fileLines c) := by
        rw [fileLines_writeLines _ hnl]
        exact map_dropCR_id _ fun l hl => hcr c hc l (hD l hl)
      have hshort2 : ∀ l ∈ rawLines (writeLines (firstOccurrences (fileLines c))),
          byteLen l < maxScanTokenSize := by
        rw [rawLines_writeLines _ hnl]
        exact fun l hl => fileLines_short c hshort l (hD l hl)
      rw [dedup_ok fs filePath c hc hshort]
      rw [dedup_ok _ filePath _ (lookup_write_self fs filePath c _ hc) hshort2, hfl,
        firstOccurrences_of_nodup _ (firstOccurrences_nodup _), write_write]
    · rw [dedup_scan_error fs filePath c hc hlong, dedup_scan_error fs filePath c hc hlong]
  · rw [dedup_open_error fs filePath hno, dedup_open_error fs filePath hno]

/-- C3, witness: a file with repeated lines under both kinds of terminator. -/
theorem removeDuplicatesFromFile_twice_witness :
    (removeDuplicatesFromFile
        (removeDuplicatesFromFile [⟨["f"], .file "a\r\nb\na\n".toList⟩] ["f"]).2 ["f"]).2 =
      (removeDuplicatesFromFile [⟨["f"], .file "a\r\nb\na\n".toList⟩] ["f"]).2 :=
  removeDuplicatesFromFile_twice [⟨["f"], .file "a\r\nb\na\n".toList⟩] ["f"] (by
    intro content h
    have hc : content = "a\r\nb\na\n".toList := by
      simp only [lookup, if_true, Option.some.injEq, Node.file.injEq] at h
      exact h.symm
    subst hc
    decide)

/-- C3 as stated fails: on a file whose one line ends in two carriage returns
the second run changes the file the first run wrote. -/
theorem removeDuplicatesFromFile_twice_counterexample :
    (removeDuplicatesFromFile [⟨["f"], .file "a\r\r\n".toList⟩] ["f"]).2 =
        [⟨["f"], .file "a\r\n".toList⟩] ∧
      (removeDuplicatesFromFile
          (removeDuplicatesFromFile [⟨["f"], .file "a\r\r\n".toList⟩] ["f"]).2 ["f"]).2 =
        [⟨["f"], .file "a\n".toList⟩] := by
  decide

/-- C5, amended.  `extractAndRemoveUsings` classifies a line as a directive if
and only if the line with its leading white space removed begins with the
literal, case-sensitive prefix `using ` (the space included) and a character
that is not white space follows that prefix: the test trims trailing white
space too. -/
theorem extractAndRemoveUsings_directive_iff (line : Str) :
    extractLoop [line] [] [] = ([], [line]) ↔
      ∃ rest, line.dropWhile IsSpace = "using ".toList ++ rest ∧
        ∃ c ∈ rest, IsSpace c = false := by
  rw [← isUsing_iff]
  by_cases h : isUsing line = true
  · simp [extractLoop, h]
  · simp [extractLoop, h]

/-- C5 as stated fails: the line `using ` followed by blanks only begins with
the prefix once its leading white space is removed, and is kept as a line of
the body. -/
theorem extractAndRemoveUsings_directive_counterexample :
    HasPrefix ("  using  ".toList.dropWhile IsSpace) "using ".toList = true ∧
      extractLoop ["  using  ".toList] [] [] = (["  using  ".toList], []) := by
  decide

/-- C6, amended.  Running `extractAndRemoveUsings` a second time on the file a
first run left returns zero directives, whatever the file; it leaves the file
system, and so the file, unchanged when no line of the original file that is
not a directive, taken without its terminator (a newline, or a carriage
return and a newline), still ends in a carriage return. -/
theorem extractAndRemoveUsings_twice (fs : FS) (filePath : Path) :
    (extractAndRemoveUsings (extractAndRemoveUsings fs filePath).2 filePath).1.1 = [] ∧
      ((∀ content, lookup fs filePath = some (.file content) →
          ∀ l ∈ (fileLines content).filter (fun l => !isUsing l), dropCR l = l) →
        (extractAndRemoveUsings (extractAndRemoveUsings fs filePath).2 filePath).2 =
          (extractAndRemoveUsings fs filePath).2) := by
  rcases lookup_file_or_not fs filePath with ⟨c, hc⟩ | hno
  · rcases lines_short_or_long c with hshort | hlong
    · have hnl : ∀ l ∈ body c, '\n' ∉ l :=
        fun l hl => fileLines_no_newline c l (body_subset c l hl)
      have hshort2 : ∀ l ∈ rawLines (writeLines (body c)), byteLen l < maxScanTokenSize := by
        rw [rawLines_writeLines _ hnl]
        exact fun l hl => fileLines_short c hshort l (body_subset c l hl)
      rw [extract_ok fs filePath c hc hshort]
      rw [extract_ok _ filePath _ (lookup_write_self fs filePath c _ hc) hshort2]
      constructor
      · simp only [directives]
        rw [fileLines_writeLines _ hnl]
        exact filter_isUsing_map_dropCR _ (body_not_using c)
      · intro hcr
        have hfl : fileLines (writeLines (body c)) = body c := by
          rw [fileLines_writeLines _ hnl]
          exact map_dropCR_id _ fun l hl => hcr c hc l hl
        have hbody : body (writeLines (body c)) = body c := by
          rw [body, hfl]
          exact List.filter_eq_self.mpr fun l hl => by simp [body_not_using c l hl]
        simp only [hbody, write_write]
    · rw [extract_scan_error fs filePath c hc hlong, extract_scan_error fs filePath c hc hlong]
      exact ⟨rfl, fun _ => rfl⟩
  · have h := extract_open_error fs filePath hno
    rw [h.1]
    exact ⟨h.2.1, fun _ => h.1⟩

/-- C6, witness: a second run on a file with two directives and two other
lines returns nothing and changes nothing. -/
theorem extractAndRemoveUsings_twice_witness :
    (extractAndRemoveUsings
        (extractAndRemoveUsings
          [⟨["a.cs"], .file "using A;\r\nclass X\x7b\x7d\n  using B;\n\x7d\n".toList⟩] ["a.cs"]).2
        ["a.cs"]).1.1 = [] ∧
      (extractAndRemoveUsings
        (extractAndRemoveUsings
          [⟨["a.cs"], .file "using A;\r\nclass X\x7b\x7d\n  using B;\n\x7d\n".toList⟩] ["a.cs"]).2
        ["a.cs"]).2 =
      (extractAndRemoveUsings
        [⟨["a.cs"], .file "using A;\r\nclass X\x7b\x7d\n  using B;\n\x7d\n".toList⟩] ["a.cs"]).2 :=
  ⟨(extractAndRemoveUsings_twice _ _).1,
    (extractAndRemoveUsings_twice _ _).2 (by
      intro content h
      have hc : content = "using A;\r\nclass X\x7b\x7d\n  using B;\n\x7d\n".toList := by
        simp only [lookup, if_true, Option.some.injEq, Node.file.injEq] at h
        exact h.symm
      subst hc
      decide)⟩

/-- C6 as stated fails: a line that ends in two carriage returns is kept by
the first run with one of them, and rewritten by the second run without. -/
theorem extractAndRemoveUsings_twice_counterexample :
    (extractAndRemoveUsings [⟨["a.cs"], .file "class X\x7b\x7d\r\r\n".toList⟩] ["a.cs"]).2 =
        [⟨["a.cs"], .file "class X\x7b\x7d\r\n".toList⟩] ∧
      (extractAndRemoveUsings
          (extractAndRemoveUsings [⟨["a.cs"], .file "class X\x7b\x7d\r\r\n".toList⟩] ["a.cs"]).2
          ["a.cs"]).2 =
        [⟨["a.cs"], .file "class X\x7b\x7d\n".toList⟩] := by
  decide

/-! ## Claims about the aggregate file -/

/-- C9, the code at the failing inputs.  The function alone: the aggregate
file holds 65536 bytes without a newline, the deduplication fails with the
scanner's error, and `createGlobalUsingsFile` returns no error.  A pass of
the loop of `main`: the source file holds twice a directive of 65529 bytes,
which `processCSFiles` returns; the line written for it has 65536 bytes, so
the deduplication fails and leaves the line twice; `createGlobalUsingsFile`
returns no error and the loop prints none. -/
theorem createGlobalUsingsFile_drops_error :
    (removeDuplicatesFromFile
        (appendFile [⟨["p"], .dir true⟩, ⟨["p", "GlobalUsings.cs"], .file longLine⟩]
          ["p", "GlobalUsings.cs"] (writeLines ["global using System;".toList]))
        ["p", "GlobalUsings.cs"]).1 = some .ErrTooLong ∧
      (createGlobalUsingsFile [⟨["p"], .dir true⟩, ⟨["p", "GlobalUsings.cs"], .file longLine⟩]
        ["p"] ["using System;".toList]).1 = none ∧
      processCSFiles treeLong ["p"] = (([longUsing, longUsing], none), treeLongStripped) ∧
      removeDuplicatesFromFile treeLongDone ["p", "GlobalUsings.cs"] =
        (some .ErrTooLong, treeLongDone) ∧
      createGlobalUsingsFile treeLongStripped ["p"] [longUsing, longUsing] =
        (none, treeLongDone) ∧
      main.transform [["p"]] treeLong [] = ([.processing ["p"]], treeLongDone) := by
  refine ⟨?_, ?_, treeLong_processed, treeLong_dedup, treeLong_aggregate, treeLong_run⟩
  · have happ : appendFile [⟨["p"], .dir true⟩, ⟨["p", "GlobalUsings.cs"], .file longLine⟩]
        ["p", "GlobalUsings.cs"] (writeLines ["global using System;".toList]) =
        [⟨["p"], .dir true⟩,
          ⟨["p", "GlobalUsings.cs"],
            .file (writeLines [longLine ++ "global using System;".toList])⟩] := by
      have h1 : longLine ++ writeLines ["global using System;".toList] =
          writeLines [longLine ++ "global using System;".toList] := by
        simp [writeLines, Fprintln]
      rw [← h1]
      exact appendFile_second _ _ _ _ (by decide)
    have hraw : rawLines (writeLines [longLine ++ "global using System;".toList]) =
        [longLine ++ "global using System;".toList] := by
      apply rawLines_writeLines
      intro l hl
      rw [List.mem_singleton.mp hl]
      intro hm
      rcases List.mem_append.mp hm with h | h
      · exact longLine_no_newline h
      · exact absurd h (by decide)
    rw [happ, dedup_scan_error _ _ (writeLines [longLine ++ "global using System;".toList])
      (by simp [lookup])]
    rw [hraw]
    refine ⟨longLine ++ "global using System;".toList, List.mem_singleton.mpr rfl, ?_⟩
    rw [byteLen_append, longLine_len]
    exact Nat.le_add_right _ _
  · rw [createGlobalUsingsFile_existing _ _ _ longLine (by simp [lookup])]

/-! ## Claims about a project root and a run -/

/-- C7, amended.  Take a project root that is a directory the walk can list,
in a file system where a path names one entry, such that the root holds no
`GlobalUsings.cs` yet, the walk meets no directory it cannot list and none
named `*.cs`, and every line of every `.cs` file, taken without its
terminator (a newline, or a carriage return and a newline), has fewer than
`maxScanTokenSize - 7` bytes and does not end in a carriage return.
Processing the root (`processCSFiles`, then `createGlobalUsingsFile`, one pass
of the loop of `main`) reports no error, leaves each `.cs` file with only its
non-directive lines, and leaves `GlobalUsings.cs` holding the
`"global "`-prefixed directives of `f1`, then `f2`, and so on in walk order,
each in line order, with later duplicates removed. -/
theorem processRoot_extracts_and_aggregates (fs : FS) (root : Path)
    (hroot : lookup fs root = some (.dir true)) (hnd : (fs.map Entry.path).Nodup)
    (hwalk : ∀ e ∈ fs, root <+: e.path →
      e.node ≠ .dir false ∧ (Ext e.path = csExt → isFile e.node = true))
    (hlines : ∀ f ∈ csFiles fs root, ∀ l ∈ fileLines f.2,
      byteLen l + 7 < maxScanTokenSize ∧ dropCR l = l)
    (hnew : lookup fs (root ++ ["GlobalUsings.cs"]) = none) :
    (processCSFiles fs root).1 = (rootDirectives fs root, none) ∧
      (main.transform [root] fs []).1 = [.processing root] ∧
      (∀ f ∈ csFiles fs root,
        lookup (main.transform [root] fs []).2 f.1 = some (.file (writeLines (body f.2)))) ∧
      lookup (main.transform [root] fs []).2 (root ++ ["GlobalUsings.cs"]) =
        some (.file (writeLines (firstOccurrences ((rootDirectives fs root).map globalLine)))) := by
  have hw := walkEntries_dir fs root true hroot
  have hsub : ∀ e ∈ fs.filter (fun e => root.isPrefixOf e.path), e ∈ fs ∧ root <+: e.path :=
    fun e he => ⟨List.mem_of_mem_filter he, List.isPrefixOf_iff_prefix.mp (List.mem_filter.mp he).2⟩
  have hsrc : ∀ f ∈ sourceFiles (fs.filter fun e => root.isPrefixOf e.path),
      lookup fs f.1 = some (.file f.2) ∧ ∀ l ∈ rawLines f.2, byteLen l < maxScanTokenSize := by
    intro f hf
    obtain ⟨e, he, hp, hn, _⟩ := sourceFiles_mem _ f hf
    refine ⟨?_, fun l hl => ?_⟩
    · rw [← hp, ← hn]
      exact lookup_of_mem fs hnd e (hsub e he).1
    · have h1 := (hlines f hf (dropCR l) (List.mem_map_of_mem _ hl)).1
      have h2 := byteLen_le_dropCR_succ l
      omega
  have hnd2 : ((fs.filter fun e => root.isPrefixOf e.path).map Entry.path).Nodup :=
    List.Nodup.sublist ((List.filter_sublist fs).map _) hnd
  obtain ⟨hv1, hv2⟩ := visit_ok (fs.filter fun e => root.isPrefixOf e.path) fs []
    (fun e he => (hwalk e (hsub e he).1 (hsub e he).2).1)
    (fun e he => (hwalk e (hsub e he).1 (hsub e he).2).2) hsrc hnd2
  have hproc : processCSFiles fs root =
      processCSFiles.visit (fs.filter fun e => root.isPrefixOf e.path) fs [] := by
    simp [processCSFiles, hw]
  rw [← hproc] at hv1 hv2
  rw [List.nil_append] at hv1
  have hv1' : (processCSFiles fs root).1 = (rootDirectives fs root, none) := hv1
  have hgnone : lookup (processCSFiles fs root).2 (root ++ ["GlobalUsings.cs"]) = none := by
    rw [hproc, processCSFiles_visit_frame _ _ _ _
      (fun e he => not_mem_of_lookup_none fs _ hnew e (hsub e he).1)]
    exact hnew
  have hgdir : lookup (processCSFiles fs root).2 root = some (.dir true) := by
    rw [hproc]; exact visit_keeps_dir _ fs [] root true hroot
  have hU : ∀ u ∈ rootDirectives fs root,
      '\n' ∉ u ∧ byteLen u + 7 < maxScanTokenSize ∧ dropCR u = u := by
    intro u hu
    obtain ⟨f, hf, huf⟩ := List.mem_flatMap.mp hu
    have hul : u ∈ fileLines f.2 := List.mem_of_mem_filter huf
    exact ⟨fileLines_no_newline f.2 _ hul, (hlines f hf u hul).1, (hlines f hf u hul).2⟩
  have hcg := createGlobalUsingsFile_new (processCSFiles fs root).2 root (rootDirectives fs root)
    true hgnone hgdir
    (fun l hl => by
      obtain ⟨u, hu, rfl⟩ := List.mem_map.mp hl
      exact globalLine_no_newline u (hU u hu).1)
    (fun l hl => by
      obtain ⟨u, hu, rfl⟩ := List.mem_map.mp hl
      rw [byteLen_globalLine]
      have := (hU u hu).2.1
      omega)
    (fun l hl => by
      obtain ⟨u, hu, rfl⟩ := List.mem_map.mp hl
      exact dropCR_globalLine u (hU u hu).2.2)
  rcases hp : processCSFiles fs root with ⟨⟨us, err⟩, fs1⟩
  rw [hp] at hv1' hv2 hcg
  simp only [Prod.mk.injEq] at hv1'
  obtain ⟨hus, herr⟩ := hv1'
  subst hus herr
  rcases hc : createGlobalUsingsFile fs1 root (rootDirectives fs root) with ⟨err2, fs2⟩
  rw [hc] at hcg
  simp only at hcg
  obtain ⟨herr2, hlk⟩ := hcg
  subst herr2
  have hfinal : main.transform [root] fs [] = ([.processing root], fs2) := by
    simp [main.transform, hp, hc]
  rw [hfinal]
  refine ⟨rfl, rfl, ?_, hlk⟩
  intro f hf
  obtain ⟨e, he, hpth, _, _⟩ := sourceFiles_mem _ f hf
  have hfne : f.1 ≠ root ++ ["GlobalUsings.cs"] :=
    fun h => not_mem_of_lookup_none fs _ hnew e (hsub e he).1 (hpth.trans h)
  have := createGlobalUsingsFile_frame fs1 root (rootDirectives fs root) f.1 hfne
  rw [hc] at this
  simp only at this
  rw [this]
  exact hv2 f hf

/-- C7, witness: the example of the specification.  The two files become
`class X{}` and `class Y{}`, and `GlobalUsings.cs` is `global using System;`
then `global using System.Linq;`. -/
theorem processRoot_extracts_and_aggregates_witness :
    (main.transform [["p"]] treeSpec []).2 =
        [⟨["p"], .dir true⟩,
          ⟨["p", "GlobalUsings.cs"],
            .file "global using System;\nglobal using System.Linq;\n".toList⟩,
          ⟨["p", "file1.cs"], .file "class X\x7b\x7d\n".toList⟩,
          ⟨["p", "file2.cs"], .file "class Y\x7b\x7d\n".toList⟩,
          ⟨["p", "p.csproj"], .file []⟩] ∧
      lookup (main.transform [["p"]] treeSpec []).2 (["p"] ++ ["GlobalUsings.cs"]) =
        some (.file (writeLines
          (firstOccurrences ((rootDirectives treeSpec ["p"]).map globalLine)))) :=
  ⟨by decide,
    (processRoot_extracts_and_aggregates treeSpec ["p"] (by decide) (by decide) (by decide)
      (by decide) (by decide)).2.2.2⟩

/-- C7 as stated fails: a root that already has an aggregate file, which is
one of its `.cs` files, keeps the old content of that file in front of the
directive of the run. -/
theorem processRoot_existing_aggregate_counterexample :
    csFiles treeOld ["p"] =
        [(["p", "GlobalUsings.cs"], "// old\n".toList),
          (["p", "a.cs"], "using A;\nclass X\n".toList)] ∧
      rootDirectives treeOld ["p"] = ["using A;".toList] ∧
      lookup (main.transform [["p"]] treeOld []).2 ["p", "GlobalUsings.cs"] =
        some (.file "// old\nglobal using A;\n".toList) := by
  decide

/-- C8, amended.  When isolation is enabled and the target directory is
neither the root directory nor itself named `.guext-tmp`, every project
directory the run processes and every file the run creates or changes lies
under the scratch path `createWorkingDirectory` returned, `../.guext-tmp/<id>`
seen from the target, and not in the tree of the target, for every outcome of
creating the scratch directory and of copying into it. -/
theorem main_isolation_confines_writes (env : Env) (showVersion : Bool) (dir : Path) (fs : FS)
    (hroot : dir ≠ []) (hname : dir.getLast? ≠ some ".guext-tmp") :
    (∀ r, Msg.processing r ∈ (main env showVersion (some dir) false fs).1 →
        (createWorkingDirectory env fs dir).1 =
            some (dir.dropLast ++ [".guext-tmp", env.uuid]) ∧
          dir.dropLast ++ [".guext-tmp", env.uuid] <+: r ∧ ¬ dir <+: r) ∧
      ∀ q c, lookup (main env showVersion (some dir) false fs).2 q = some (.file c) →
        lookup fs q ≠ some (.file c) →
        (createWorkingDirectory env fs dir).1 =
            some (dir.dropLast ++ [".guext-tmp", env.uuid]) ∧
          dir.dropLast ++ [".guext-tmp", env.uuid] <+: q ∧ ¬ dir <+: q := by
  have key : ∀ q : Path, dir.dropLast ++ [".guext-tmp", env.uuid] <+: q → ¬ dir <+: q := by
    intro q hpre hd
    have hlen : dir.length ≤ (dir.dropLast ++ [".guext-tmp", env.uuid]).length := by
      simp only [List.length_append, List.length_dropLast, List.length_cons, List.length_nil]
      omega
    exact hname (scratch_inside dir env.uuid hroot (List.prefix_of_prefix_length_le hd hpre hlen))
  constructor
  · intro r hr
    obtain ⟨hwd, hpre⟩ := main_isolated_roots env showVersion dir fs r hr
    exact ⟨hwd, hpre, key r hpre⟩
  · intro q c hnew hold
    obtain ⟨hwd, hpre⟩ := main_isolated_frame env showVersion dir fs q c hnew hold
    exact ⟨hwd, hpre, key q hpre⟩

/-- C8, witness: the project of the copy is processed and its source file is
rewritten in the scratch directory. -/
theorem main_isolation_confines_writes_witness :
    Msg.processing [".guext-tmp", "id"] ∈ (main envFull false (some ["t"]) false treeT).1 ∧
      lookup (main envFull false (some ["t"]) false treeT).2 [".guext-tmp", "id", "a.cs"] =
        some (.file "class X\n".toList) ∧
      lookup treeT [".guext-tmp", "id", "a.cs"] = none ∧
      (createWorkingDirectory envFull treeT ["t"]).1 = some [".guext-tmp", "id"] ∧
      [".guext-tmp", "id"] <+: [".guext-tmp", "id", "a.cs"] ∧
      ¬ ["t"] <+: [".guext-tmp", "id", "a.cs"] :=
  ⟨by decide, by decide, by decide,
    (main_isolation_confines_writes envFull false ["t"] treeT (by decide) (by decide)).2
      [".guext-tmp", "id", "a.cs"] "class X\n".toList (by decide) (by decide)⟩

/-- C8 as stated fails: for a target directory named `.guext-tmp` the scratch
path lies in the tree of the target, and so does the aggregate file the run
creates. -/
theorem main_isolation_counterexample :
    lookup (main envFull false (some ["x", ".guext-tmp"]) false treeTmp).2
        ["x", ".guext-tmp", "id", "GlobalUsings.cs"] = some (.file "global using A;\n".toList) ∧
      lookup treeTmp ["x", ".guext-tmp", "id", "GlobalUsings.cs"] = none ∧
      (createWorkingDirectory envFull treeTmp ["x", ".guext-tmp"]).1 =
        some ["x", ".guext-tmp", "id"] ∧
      ["x", ".guext-tmp"] <+: ["x", ".guext-tmp", "id", "GlobalUsings.cs"] := by
  refine ⟨by decide, by decide, by decide, ⟨["id", "GlobalUsings.cs"], rfl⟩⟩

/-- The other target the scratch path is not outside of: for the root
directory `/` it is `/.guext-tmp/<id>`, and the run writes there. -/
theorem main_isolation_root_target :
    (createWorkingDirectory envFull treeRoot []).1 = some [".guext-tmp", "id"] ∧
      lookup (main envFull false (some []) false treeRoot).2
        [".guext-tmp", "id", "GlobalUsings.cs"] = some (.file "global using A;\n".toList) ∧
      lookup treeRoot [".guext-tmp", "id", "GlobalUsings.cs"] = none ∧
      [] <+: [".guext-tmp", "id", "GlobalUsings.cs"] := by
  refine ⟨by decide, by decide, by decide, List.nil_prefix⟩

/-- C10, the code at the failing input: the scan of the isolated copy finds
the project `p`, then fails at the directory `z`; the run goes on with what
the scan returned, rewrites the source file of `p` and writes its aggregate
file. -/
theorem main_rescan_error_ignored :
    findDirectoriesWithCSProj (createWorkingDirectory envBroken treeTwo ["t"]).2.2
        (createWorkingDirectory envBroken treeTwo ["t"]).1 =
        ([[".guext-tmp", "id", "p"]], some .EACCES) ∧
      (main envBroken false (some ["t"]) false treeTwo).1 = [.processing [".guext-tmp", "id", "p"]] ∧
      lookup (main envBroken false (some ["t"]) false treeTwo).2 [".guext-tmp", "id", "p", "a.cs"] =
        some (.file "class X\n".toList) ∧
      lookup (main envBroken false (some ["t"]) false treeTwo).2
        [".guext-tmp", "id", "p", "GlobalUsings.cs"] = some (.file "global using A;\n".toList) := by
  decide

end Guext
